import Mathlib

/-!
Verification of the AICutSplit packet-classification library.

The Rust sources are embedded shallowly: machine integers (u8/u16/u32) become
natural numbers together with explicit bounds where overflow or width matters,
`Option` stays `Option`, vectors become lists, hash maps become association
lists in insertion order.  Definitions mirror the corresponding Rust items
(file and function names are noted on each definition).
-/

namespace AICutSplit

/-- Source src/packet.rs: struct FiveTuple (u32, u32, u16, u16, u8). -/
structure FiveTuple where
  src_ip : Nat
  dst_ip : Nat
  src_port : Nat
  dst_port : Nat
  proto : Nat
deriving DecidableEq, Repr

/-- A packet is well formed when each field fits its machine width
(guaranteed in Rust by the field types u32/u16/u8). -/
def FiveTuple.wf (p : FiveTuple) : Prop :=
  p.src_ip < 2 ^ 32 ∧ p.dst_ip < 2 ^ 32 ∧ p.src_port < 2 ^ 16 ∧
    p.dst_port < 2 ^ 16 ∧ p.proto < 2 ^ 8

instance (p : FiveTuple) : Decidable p.wf := by
  unfold FiveTuple.wf; infer_instance

/-- Source src/rule.rs: struct Range<T> { min, max } (instantiated at
unsigned integer types, embedded as Nat). -/
structure NRange where
  min : Nat
  max : Nat
deriving DecidableEq, Repr

/-- Source src/rule.rs: Range::contains — val >= min && val <= max. -/
def NRange.contains (r : NRange) (v : Nat) : Bool :=
  r.min ≤ v && v ≤ r.max

/-- Source src/rule.rs: Range::new. -/
def NRange.new (mi ma : Nat) : NRange := ⟨mi, ma⟩

/-- Source src/rule.rs: Range::exact — [val, val]. -/
def NRange.exact (v : Nat) : NRange := ⟨v, v⟩

/-- Source src/rule.rs: enum Action. -/
inductive Action where
  | Permit : Action
  | Deny : Action
deriving DecidableEq, Repr

/-- Source src/rule.rs: struct Rule. -/
structure Rule where
  id : Nat
  priority : Nat
  src_ip : NRange
  dst_ip : NRange
  src_port : NRange
  dst_port : NRange
  proto : NRange
  action : Action
deriving DecidableEq, Repr

/-- Source src/rule.rs: Rule::matches — all five ranges contain the
corresponding packet field. -/
def Rule.matches (r : Rule) (t : FiveTuple) : Bool :=
  r.src_ip.contains t.src_ip && r.dst_ip.contains t.dst_ip &&
    r.src_port.contains t.src_port && r.dst_port.contains t.dst_port &&
    r.proto.contains t.proto

/-- First rule of the list that matches the packet, in list order.  This is
exactly the linear scan `for rule in rules { if rule.matches(p) ... }`. -/
def firstMatch (rules : List Rule) (p : FiveTuple) : Option Rule :=
  rules.find? (fun r => r.matches p)

/-- Stable insertion into a priority-sorted list: the new element goes after
every element of strictly smaller priority and before the rest. -/
def insertByPriority (r : Rule) : List Rule → List Rule
  | [] => [r]
  | x :: xs =>
      if x.priority < r.priority then x :: insertByPriority r xs
      else r :: x :: xs

/-- Stable sort by ascending priority; embeds Rust's stable
slice::sort_by_key(|r| r.priority) from src/linear.rs and
src/tss/classifier.rs. -/
def sortByPriority : List Rule → List Rule
  | [] => []
  | x :: xs => insertByPriority x (sortByPriority xs)

/-- Source src/linear.rs: struct LinearClassifier { rules }. -/
structure LinearClassifier where
  rules : List Rule
deriving Repr

/-- Source src/linear.rs: LinearClassifier::build — sort by priority. -/
def LinearClassifier.build (rules : List Rule) : LinearClassifier :=
  ⟨sortByPriority rules⟩

/-- Source src/linear.rs: LinearClassifier::classify — first match wins. -/
def LinearClassifier.classify (c : LinearClassifier) (p : FiveTuple) : Option Action :=
  (firstMatch c.rules p).map Rule.action

section SortLemmas

theorem insertByPriority_perm (r : Rule) (l : List Rule) :
    (insertByPriority r l).Perm (r :: l) := by
  induction l with
  | nil => simp [insertByPriority]
  | cons x xs ih =>
      by_cases h : x.priority < r.priority
      · simp only [insertByPriority, if_pos h]
        exact (ih.cons x).trans (List.Perm.swap r x xs)
      · simp [insertByPriority, if_neg h]

theorem sortByPriority_perm (l : List Rule) : (sortByPriority l).Perm l := by
  induction l with
  | nil => simp [sortByPriority]
  | cons x xs ih =>
      exact (insertByPriority_perm x (sortByPriority xs)).trans (ih.cons x)

theorem mem_sortByPriority {r : Rule} {l : List Rule} :
    r ∈ sortByPriority l ↔ r ∈ l :=
  (sortByPriority_perm l).mem_iff

/-- Sortedness predicate used throughout: non-decreasing priorities. -/
def PrioSorted (l : List Rule) : Prop :=
  l.Pairwise (fun a b => a.priority ≤ b.priority)

theorem insertByPriority_sorted {l : List Rule} (h : PrioSorted l) (r : Rule) :
    PrioSorted (insertByPriority r l) := by
  induction l with
  | nil => simp [insertByPriority, PrioSorted]
  | cons x xs ih =>
      rcases h with _ | ⟨hx, hxs⟩
      by_cases hc : x.priority < r.priority
      · simp only [insertByPriority, if_pos hc]
        refine List.Pairwise.cons ?_ (ih hxs)
        intro b hb
        rcases List.mem_cons.mp ((insertByPriority_perm r xs).mem_iff.mp hb) with hb | hb
        · subst hb; exact le_of_lt hc
        · exact hx b hb
      · simp only [insertByPriority, if_neg hc]
        refine List.Pairwise.cons ?_ (List.Pairwise.cons hx hxs)
        intro b hb
        rcases List.mem_cons.mp hb with hb | hb
        · subst hb; exact le_of_not_lt hc
        · exact le_trans (le_of_not_lt hc) (hx b hb)

theorem sortByPriority_sorted (l : List Rule) : PrioSorted (sortByPriority l) := by
  induction l with
  | nil => simp [sortByPriority, PrioSorted]
  | cons x xs ih => exact insertByPriority_sorted ih x

/-- Sorting an already priority-sorted list is the identity (insertion sort
with a strict comparison keeps equal keys in place). -/
theorem sortByPriority_eq_self {l : List Rule} (h : PrioSorted l) :
    sortByPriority l = l := by
  induction l with
  | nil => rfl
  | cons x xs ih =>
      rcases h with _ | ⟨hx, hxs⟩
      have hxs' := ih hxs
      simp only [sortByPriority, hxs']
      cases xs with
      | nil => rfl
      | cons y ys =>
          have : ¬ y.priority < x.priority := not_lt.mpr (hx y (by simp))
          simp [insertByPriority, this]

end SortLemmas

section FirstMatchLemmas

theorem firstMatch_eq_none {rules : List Rule} {p : FiveTuple} :
    firstMatch rules p = none ↔ ∀ r ∈ rules, ¬ r.matches p = true := by
  simp [firstMatch, List.find?_eq_none]

theorem firstMatch_mem {rules : List Rule} {p : FiveTuple} {r : Rule}
    (h : firstMatch rules p = some r) : r ∈ rules ∧ r.matches p = true := by
  have h' : rules.find? (fun r => r.matches p) = some r := h
  exact ⟨List.mem_of_find?_eq_some h', by simpa using List.find?_some h'⟩

theorem firstMatch_append_left {l₁ l₂ : List Rule} {p : FiveTuple} {r : Rule}
    (h : firstMatch l₁ p = some r) : firstMatch (l₁ ++ l₂) p = some r := by
  induction l₁ with
  | nil => simp [firstMatch] at h
  | cons x xs ih =>
      simp only [firstMatch, List.cons_append, List.find?] at h ⊢
      cases hx : x.matches p with
      | true => simpa [hx] using h
      | false => simp only [hx] at h ⊢; exact ih h

theorem firstMatch_isSome {rules : List Rule} {p : FiveTuple} {r : Rule}
    (hr : r ∈ rules) (hm : r.matches p = true) : ∃ s, firstMatch rules p = some s := by
  cases h : firstMatch rules p with
  | some s => exact ⟨s, rfl⟩
  | none => exact absurd hm (firstMatch_eq_none.mp h r hr)

/-- In a priority-sorted list the first match has minimal priority among all
matching rules. -/
theorem firstMatch_sorted_minimal {rules : List Rule} {p : FiveTuple} {r : Rule}
    (hs : PrioSorted rules) (h : firstMatch rules p = some r) :
    ∀ r' ∈ rules, r'.matches p = true → r.priority ≤ r'.priority := by
  induction rules with
  | nil => simp [firstMatch] at h
  | cons x xs ih =>
      rcases hs with _ | ⟨hx, hxs⟩
      simp only [firstMatch, List.find?] at h
      cases hm : x.matches p with
      | true =>
          simp only [hm] at h
          injection h with h; subst h
          intro r' hr' hm'
          rcases List.mem_cons.mp hr' with hr' | hr'
          · subst hr'; exact le_refl _
          · exact hx r' hr'
      | false =>
          simp only [hm] at h
          intro r' hr' hm'
          rcases List.mem_cons.mp hr' with hr' | hr'
          · subst hr'; rw [hm'] at hm; cases hm
          · exact ih hxs h r' hr' hm'

/-- A rule is a minimal-priority match for a packet. -/
def IsMinMatch (rules : List Rule) (p : FiveTuple) (r : Rule) : Prop :=
  r ∈ rules ∧ r.matches p = true ∧
    ∀ r' ∈ rules, r'.matches p = true → r.priority ≤ r'.priority

/-- Pairwise-distinct priorities. -/
def DistinctPrio (l : List Rule) : Prop :=
  l.Pairwise (fun a b => a.priority ≠ b.priority)

instance (l : List Rule) : Decidable (DistinctPrio l) := by
  unfold DistinctPrio; infer_instance

theorem minMatch_unique {rules : List Rule} {p : FiveTuple} {r₁ r₂ : Rule}
    (hD : DistinctPrio rules) (h₁ : IsMinMatch rules p r₁)
    (h₂ : IsMinMatch rules p r₂) : r₁ = r₂ := by
  by_contra hne
  have hpe : r₁.priority = r₂.priority :=
    le_antisymm (h₁.2.2 r₂ h₂.1 h₂.2.1) (h₂.2.2 r₁ h₁.1 h₁.2.1)
  have := hD.forall (fun a b hab => hab.symm) h₁.1 h₂.1 hne
  exact this hpe

/-- Linear classification characterised: on a `some` result the witness rule
is a minimal-priority match, and `none` means no rule matches. -/
theorem linear_minMatch {rules : List Rule} {p : FiveTuple} :
    (∀ a, (LinearClassifier.build rules).classify p = some a →
       ∃ r, IsMinMatch rules p r ∧ r.action = a) ∧
    ((LinearClassifier.build rules).classify p = none ↔
       ∀ r ∈ rules, ¬ r.matches p = true) := by
  constructor
  · intro a ha
    simp only [LinearClassifier.classify, LinearClassifier.build, Option.map_eq_some'] at ha
    obtain ⟨r, hr, hact⟩ := ha
    refine ⟨r, ⟨mem_sortByPriority.mp (firstMatch_mem hr).1, (firstMatch_mem hr).2, ?_⟩, hact⟩
    intro r' hr' hm'
    exact firstMatch_sorted_minimal (sortByPriority_sorted rules) hr r'
      (mem_sortByPriority.mpr hr') hm'
  · simp only [LinearClassifier.classify, LinearClassifier.build, Option.map_eq_none']
    rw [firstMatch_eq_none]
    constructor
    · intro h r hr
      exact h r (mem_sortByPriority.mpr hr)
    · intro h r hr
      exact h r (mem_sortByPriority.mp hr)

end FirstMatchLemmas

/-- Source src/cutsplit/tree.rs: enum Dimension (reused by hicuts and
hypersplit). -/
inductive Dimension where
  | SrcIp | DstIp | SrcPort | DstPort | Proto
deriving DecidableEq, Repr

/-- Source src/cutsplit/builder.rs: get_range (the identical helper also
appears in src/hypersplit/builder.rs and hicuts rule_overlaps): port and
proto ranges are widened to u32, a no-op in the Nat embedding. -/
def getRange (r : Rule) : Dimension → NRange
  | .SrcIp => r.src_ip
  | .DstIp => r.dst_ip
  | .SrcPort => r.src_port
  | .DstPort => r.dst_port
  | .Proto => r.proto

/-- The packet field read for a dimension (the match on `dimension` in every
classify loop). -/
def packetVal (p : FiveTuple) : Dimension → Nat
  | .SrcIp => p.src_ip
  | .DstIp => p.dst_ip
  | .SrcPort => p.src_port
  | .DstPort => p.dst_port
  | .Proto => p.proto

theorem matches_getRange {r : Rule} {p : FiveTuple} (h : r.matches p = true)
    (d : Dimension) : (getRange r d).min ≤ packetVal p d ∧
      packetVal p d ≤ (getRange r d).max := by
  simp only [Rule.matches, Bool.and_eq_true, NRange.contains,
    decide_eq_true_eq] at h
  obtain ⟨⟨⟨⟨h1, h2⟩, h3⟩, h4⟩, h5⟩ := h
  cases d <;> simp_all [getRange, packetVal]

/-- Shared node shape of src/cutsplit/tree.rs and src/hypersplit/tree.rs:
the two Rust enums are field-for-field identical (cut_val is named pivot in
hypersplit), so a single Lean inductive embeds both. -/
inductive BinNode where
  | internal (dimension : Dimension) (cut_val : Nat) (left right : BinNode)
  | leaf (rules : List Rule)
deriving Repr

/-- Source src/cutsplit/builder.rs: partition_rules (identical to
hypersplit's split_rules): a rule goes left when range.min < val and right
when range.max >= val; straddling rules are duplicated into both. -/
def partitionRules (rules : List Rule) (dim : Dimension) (val : Nat) :
    List Rule × List Rule :=
  (rules.filter (fun r => (getRange r dim).min < val),
   rules.filter (fun r => val ≤ (getRange r dim).max))

/-- Source src/cutsplit/builder.rs: count_split (identical in
hypersplit/builder.rs). -/
def countSplit (rules : List Rule) (dim : Dimension) (val : Nat) : Nat × Nat :=
  ((rules.filter (fun r => (getRange r dim).min < val)).length,
   (rules.filter (fun r => val ≤ (getRange r dim).max)).length)

/-- Generic recursive builder shared by CutSplit and HyperSplit
(src/cutsplit/builder.rs build_recursive and src/hypersplit/builder.rs
build_recursive): stop at the leaf threshold or maximum depth, otherwise ask
the cut chooser, partition and recurse; `fullCheck` enables hypersplit's
extra guard that turns a split duplicating every rule to both sides into a
leaf.  The source carries `depth`, increments it and stops at max_depth; the
embedding carries the equivalent remaining budget fuel = max_depth - depth,
so fuel 0 is exactly the depth stop. -/
def binBuild (choose : List Rule → Option (Dimension × Nat)) (fullCheck : Bool)
    (leafThreshold : Nat) : Nat → List Rule → BinNode
  | 0, rules => .leaf rules
  | fuel + 1, rules =>
      if rules.length ≤ leafThreshold then .leaf rules
      else
        match choose rules with
        | some (d, v) =>
            if fullCheck ∧ (partitionRules rules d v).1.length = rules.length ∧
                (partitionRules rules d v).2.length = rules.length then
              .leaf rules
            else
              .internal d v
                (binBuild choose fullCheck leafThreshold fuel (partitionRules rules d v).1)
                (binBuild choose fullCheck leafThreshold fuel (partitionRules rules d v).2)
        | none => .leaf rules

/-- The iterative descent of CutSplitClassifier::classify and
HyperSplitClassifier::classify: strict `<` goes left, else right; returns the
leaf's rule list. -/
def descendBin (p : FiveTuple) : BinNode → List Rule
  | .leaf rs => rs
  | .internal d v l r =>
      if packetVal p d < v then descendBin p l else descendBin p r

/-- Leaf linear scan after the descent — the whole classify loop of
src/cutsplit/classifier.rs and src/hypersplit/classifier.rs. -/
def binClassify (root : BinNode) (p : FiveTuple) : Option Action :=
  (firstMatch (descendBin p root) p).map Rule.action

section BinTreeLemmas

theorem filter_matches_left {rules : List Rule} {d : Dimension} {v : Nat}
    {p : FiveTuple} (h : packetVal p d < v) :
    ((partitionRules rules d v).1).filter (fun r => r.matches p) =
      rules.filter (fun r => r.matches p) := by
  simp only [partitionRules]
  induction rules with
  | nil => rfl
  | cons x xs ih =>
      by_cases hm : x.matches p = true
      · have hmin : (getRange x d).min < v := lt_of_le_of_lt (matches_getRange hm d).1 h
        simp [List.filter_cons, hm, hmin, ih]
      · by_cases hq : (getRange x d).min < v <;>
          simp [List.filter_cons, hm, hq, ih]

theorem filter_matches_right {rules : List Rule} {d : Dimension} {v : Nat}
    {p : FiveTuple} (h : v ≤ packetVal p d) :
    ((partitionRules rules d v).2).filter (fun r => r.matches p) =
      rules.filter (fun r => r.matches p) := by
  simp only [partitionRules]
  induction rules with
  | nil => rfl
  | cons x xs ih =>
      by_cases hm : x.matches p = true
      · have hmax : v ≤ (getRange x d).max := le_trans h (matches_getRange hm d).2
        simp [List.filter_cons, hm, hmax, ih]
      · by_cases hq : v ≤ (getRange x d).max <;>
          simp [List.filter_cons, hm, hq, ih]

/-- Core tree invariant: whatever cuts the chooser picks, the leaf reached by
a packet holds exactly the matching rules of the input (in input order),
among possibly non-matching extras. -/
theorem descend_binBuild_filter (choose : List Rule → Option (Dimension × Nat))
    (fullCheck : Bool) (leafThreshold : Nat) :
    ∀ (fuel : Nat) (rules : List Rule) (p : FiveTuple),
      (descendBin p (binBuild choose fullCheck leafThreshold fuel rules)).filter
          (fun r => r.matches p) = rules.filter (fun r => r.matches p) := by
  intro fuel
  induction fuel with
  | zero =>
      intro rules p
      simp [binBuild, descendBin]
  | succ fuel ih =>
      intro rules p
      rw [binBuild]
      by_cases hstop : rules.length ≤ leafThreshold
      · simp [hstop, descendBin]
      · simp only [hstop, if_false]
        cases hc : choose rules with
        | none => simp [descendBin]
        | some dv =>
            obtain ⟨d, v⟩ := dv
            by_cases hfc : fullCheck ∧
                ((partitionRules rules d v).1.length = rules.length ∧
                 (partitionRules rules d v).2.length = rules.length)
            · simp [hfc, descendBin]
            · simp only [hfc, if_false]
              by_cases hv : packetVal p d < v
              · simp only [descendBin, hv, if_true]
                rw [ih (partitionRules rules d v).1 p]
                exact filter_matches_left hv
              · simp only [descendBin, hv, if_false]
                rw [ih (partitionRules rules d v).2 p]
                exact filter_matches_right (le_of_not_lt hv)

/-- First match in a list is determined by its matching sublist. -/
theorem firstMatch_eq_head_filter (rules : List Rule) (p : FiveTuple) :
    firstMatch rules p = (rules.filter (fun r => r.matches p)).head? := by
  induction rules with
  | nil => rfl
  | cons x xs ih =>
      simp only [firstMatch, List.find?, List.filter_cons]
      cases hm : x.matches p <;> simp_all [firstMatch]

/-- Classification through any built binary tree equals the input-order
first-match scan of the whole rule list. -/
theorem binClassify_eq_firstMatch (choose : List Rule → Option (Dimension × Nat))
    (fullCheck : Bool) (leafThreshold fuel : Nat)
    (rules : List Rule) (p : FiveTuple) :
    binClassify (binBuild choose fullCheck leafThreshold fuel rules) p =
      (firstMatch rules p).map Rule.action := by
  unfold binClassify
  rw [firstMatch_eq_head_filter, firstMatch_eq_head_filter,
    descend_binBuild_filter]

end BinTreeLemmas

/-- Insertion of a Nat into a sorted list (helper for the endpoint sort
`points.sort_unstable()` of the builders). -/
def insertNat (v : Nat) : List Nat → List Nat
  | [] => [v]
  | x :: xs => if x ≤ v then x :: insertNat v xs else v :: x :: xs

/-- Sorting of the endpoint vectors (`sort_unstable` on Vec<u32>). -/
def sortNat : List Nat → List Nat
  | [] => []
  | x :: xs => insertNat x (sortNat xs)

/-- Rust Vec::dedup: removes consecutive duplicates (the vector has just been
sorted, so this removes all duplicates). -/
def dedupSorted : List Nat → List Nat
  | [] => []
  | [x] => [x]
  | x :: y :: rest =>
      if x = y then dedupSorted (y :: rest) else x :: dedupSorted (y :: rest)

/-- u32::saturating_add(1) on an embedded u32 value. -/
def satSucc32 (v : Nat) : Nat := min (v + 1) (2 ^ 32 - 1)

/-- Endpoint collection of find_best_cut / find_best_split: for every rule
push range.min and range.max.saturating_add(1), sort, dedup. -/
def endpointsCS (rules : List Rule) (d : Dimension) : List Nat :=
  dedupSorted (sortNat (rules.flatMap
    (fun r => [(getRange r d).min, satSucc32 (getRange r d).max])))

/-- Source src/cutsplit/builder.rs: the body of find_best_cut for one
dimension: take the median endpoint, reject useless cuts, and report the cut
value together with l + r.  The f32 score 1.0/duplication with
duplication = (l+r)/len is strictly larger exactly when l+r is smaller
(len is fixed per node), so the integer l + r is kept as the exact cost. -/
def cutsplitCandidate (rules : List Rule) (d : Dimension) : Option (Nat × Nat) :=
  let points := endpointsCS rules d
  let mid := points.length / 2
  if 0 < mid ∧ mid < points.length then
    let v := points.getD mid 0
    let l := (countSplit rules d v).1
    let r := (countSplit rules d v).2
    if l = rules.length ∧ r = rules.length then none
    else if l = 0 ∨ r = 0 then none
    else some (v, l + r)
  else none

/-- Source src/cutsplit/builder.rs: find_best_cut — scan SrcIp, DstIp,
SrcPort, DstPort (Proto is deliberately absent) keeping the first dimension
whose cost is strictly best. -/
def find_best_cut (rules : List Rule) : Option (Dimension × Nat) :=
  (([Dimension.SrcIp, Dimension.DstIp, Dimension.SrcPort, Dimension.DstPort].foldl
    (fun best d =>
      match cutsplitCandidate rules d with
      | none => best
      | some (v, cost) =>
          match best with
          | none => some (d, v, cost)
          | some (bd, bv, bcost) =>
              if cost < bcost then some (d, v, cost) else some (bd, bv, bcost))
    none)).map (fun x => (x.1, x.2.1))

/-- Source src/hypersplit/builder.rs: candidate sampling — visit the sorted
endpoint list at stride points.len()/16 (stride 1 when at most 16 points);
step_by(s) visits the indices divisible by s. -/
def hsCandidatePoints (points : List Nat) : List Nat :=
  let step := if 16 < points.length then points.length / 16 else 1
  ((List.range points.length).filter (fun i => i % step = 0)).filterMap points.get?

/-- Source src/hypersplit/builder.rs: find_best_split — cost
max(L,R) + 0.1·(L+R) is compared here as the exact integer 10·max(L,R)+(L+R);
a strictly smaller cost replaces the incumbent, so ties keep the earlier
candidate exactly as the f32 `<` does. -/
def find_best_split (rules : List Rule) : Option (Dimension × Nat) :=
  (([Dimension.SrcIp, Dimension.DstIp, Dimension.SrcPort, Dimension.DstPort,
      Dimension.Proto].foldl
    (fun best d =>
      (hsCandidatePoints (endpointsCS rules d)).foldl
        (fun best pivot =>
          if pivot = 0 then best
          else
            let l := (countSplit rules d pivot).1
            let r := (countSplit rules d pivot).2
            if l = 0 ∨ r = 0 then best
            else if l = rules.length ∧ r = rules.length then best
            else
              let score := 10 * max l r + (l + r)
              match best with
              | none => some (d, pivot, score)
              | some (bd, bp, bscore) =>
                  if score < bscore then some (d, pivot, score)
                  else some (bd, bp, bscore))
        best)
    none)).map (fun x => (x.1, x.2.1))

/-- Source src/cutsplit/classifier.rs: CutSplitClassifier { root }. -/
structure CutSplitClassifier where
  root : BinNode

/-- Source src/cutsplit/classifier.rs: build with Builder::new(10, 20):
fuel 20 = max_depth 20 minus the initial depth 0. -/
def CutSplitClassifier.build (rules : List Rule) : CutSplitClassifier :=
  ⟨binBuild find_best_cut false 10 20 rules⟩

/-- Source src/cutsplit/classifier.rs: classify — iterative descent plus
leaf scan. -/
def CutSplitClassifier.classify (c : CutSplitClassifier) (p : FiveTuple) :
    Option Action :=
  binClassify c.root p

/-- Source src/hypersplit/classifier.rs: HyperSplitClassifier { root }. -/
structure HyperSplitClassifier where
  root : BinNode

/-- Source src/hypersplit/classifier.rs: build with Builder::new(8, 32):
fuel 32 = max_depth 32 minus the initial depth 0. -/
def HyperSplitClassifier.build (rules : List Rule) : HyperSplitClassifier :=
  ⟨binBuild find_best_split true 8 32 rules⟩

/-- Source src/hypersplit/classifier.rs: classify. -/
def HyperSplitClassifier.classify (c : HyperSplitClassifier) (p : FiveTuple) :
    Option Action :=
  binClassify c.root p

theorem cutsplit_eq_firstMatch (rules : List Rule) (p : FiveTuple) :
    (CutSplitClassifier.build rules).classify p =
      (firstMatch rules p).map Rule.action :=
  binClassify_eq_firstMatch find_best_cut false 10 20 rules p

theorem hypersplit_eq_firstMatch (rules : List Rule) (p : FiveTuple) :
    (HyperSplitClassifier.build rules).classify p =
      (firstMatch rules p).map Rule.action :=
  binClassify_eq_firstMatch find_best_split true 8 32 rules p

/-- Height of a binary decision tree (leaves at height 0). -/
def BinNode.height : BinNode → Nat
  | .leaf _ => 0
  | .internal _ _ l r => 1 + max l.height r.height

theorem binBuild_height (choose : List Rule → Option (Dimension × Nat))
    (fullCheck : Bool) (leafThreshold : Nat) :
    ∀ (fuel : Nat) (rules : List Rule),
      (binBuild choose fullCheck leafThreshold fuel rules).height ≤ fuel := by
  intro fuel
  induction fuel with
  | zero =>
      intro rules
      simp [binBuild, BinNode.height]
  | succ fuel ih =>
      intro rules
      rw [binBuild]
      by_cases hstop : rules.length ≤ leafThreshold
      · simp [hstop, BinNode.height]
      · simp only [hstop, if_false]
        cases hc : choose rules with
        | none => simp [BinNode.height]
        | some dv =>
            obtain ⟨d, v⟩ := dv
            by_cases hfc : fullCheck ∧
                ((partitionRules rules d v).1.length = rules.length ∧
                 (partitionRules rules d v).2.length = rules.length)
            · simp [hfc, BinNode.height]
            · simp only [hfc, if_false]
              have h1 := ih (partitionRules rules d v).1
              have h2 := ih (partitionRules rules d v).2
              simp only [BinNode.height]
              omega

/-- Source src/hicuts/tree.rs: enum Node. -/
inductive HNode where
  | internal (dimension : Dimension) (start step num_cuts : Nat)
      (children : List HNode)
  | leaf (rules : List Rule)

/-- The residual region per dimension tracked by the HiCuts builder: Rust
keeps a five-entry array [(Dimension, u32, u32)] always in the order SrcIp,
DstIp, SrcPort, DstPort, Proto (updates are in place); the embedding keeps
the same data as a function from Dimension. -/
def Regions := Dimension → Nat × Nat

/-- Source src/hicuts/builder.rs build: the initial full-domain ranges. -/
def initRegions : Regions := fun d =>
  match d with
  | .SrcIp => (0, 2 ^ 32 - 1)
  | .DstIp => (0, 2 ^ 32 - 1)
  | .SrcPort => (0, 65535)
  | .DstPort => (0, 65535)
  | .Proto => (0, 255)

/-- In-place update of the entry of one dimension. -/
def updateRegion (reg : Regions) (d : Dimension) (v : Nat × Nat) : Regions :=
  fun x => if x = d then v else reg x

/-- The fixed iteration order of the ranges array. -/
def allDims : List Dimension :=
  [Dimension.SrcIp, Dimension.DstIp, Dimension.SrcPort, Dimension.DstPort,
   Dimension.Proto]

/-- Source src/hicuts/builder.rs: rule_overlaps — closed-interval overlap
test rule.min <= region.max && region.min <= rule.max. -/
def ruleOverlaps (r : Rule) (d : Dimension) (minVal maxVal : Nat) : Bool :=
  (getRange r d).min ≤ maxVal && minVal ≤ (getRange r d).max

/-- Lower bound of bin i: min_val + i * step. -/
def binLo (minVal step i : Nat) : Nat := minVal + i * step

/-- Upper bound of bin i: the last bin absorbs the remainder up to max_val,
other bins end at min_val + (i+1)*step - 1. -/
def binHi (minVal maxVal step cuts i : Nat) : Nat :=
  if i = cuts - 1 then maxVal else minVal + (i + 1) * step - 1

/-- Maximum bin occupancy for a (dimension, cuts) proposal — the inner loop
of select_dimension_and_cuts. -/
def maxBinCount (rules : List Rule) (d : Dimension) (minVal maxVal cuts : Nat) :
    Nat :=
  let step := (maxVal - minVal + 1) / cuts
  ((List.range cuts).map (fun i =>
    (rules.filter (fun r =>
      ruleOverlaps r d (binLo minVal step i)
        (binHi minVal maxVal step cuts i))).length)).foldl max 0

/-- Source src/hicuts/builder.rs: select_dimension_and_cuts.  State is
(best_dim, best_cut_count, min_max_rules); `none` in the last component
models the initial usize::MAX (every real occupancy is smaller).  An update
needs the occupancy to beat the incumbent strictly and to be strictly below
the rule count (progress). -/
def selectDimensionAndCuts (rules : List Rule) (reg : Regions) :
    Dimension × Nat :=
  let st := allDims.foldl
    (fun st d =>
      let minVal := (reg d).1
      let maxVal := (reg d).2
      if maxVal ≤ minVal then st
      else
        [2, 4, 8, 16].foldl
          (fun st cuts =>
            let rangeLen := maxVal - minVal + 1
            if rangeLen < cuts then st
            else
              let mrb := maxBinCount rules d minVal maxVal cuts
              match st.2.2 with
              | none =>
                  if mrb < rules.length then (d, cuts, some mrb) else st
              | some m =>
                  if mrb < m ∧ mrb < rules.length then (d, cuts, some mrb)
                  else st)
          st)
    ((Dimension.SrcIp, 1, none) : Dimension × Nat × Option Nat)
  (st.1, st.2.1)

/-- Source src/hicuts/builder.rs: build_recursive with parameters
leaf_threshold and max_depth (binth and spfac are set but unused).  The
source recursion carries `depth`, increments it, and stops once
depth >= max_depth; the embedding carries the equivalent remaining budget
fuel = max_depth - depth, so fuel 0 is exactly the depth stop. -/
def hicutsBuildGo (leafThreshold : Nat) : Nat → List Rule → Regions → HNode
  | 0, rules, _ => HNode.leaf rules
  | fuel + 1, rules, reg =>
      if rules.length ≤ leafThreshold then .leaf rules
      else
        let dc := selectDimensionAndCuts rules reg
        if dc.2 ≤ 1 then .leaf rules
        else
          let minVal := (reg dc.1).1
          let maxVal := (reg dc.1).2
          let step := (maxVal - minVal + 1) / dc.2
          .internal dc.1 minVal step dc.2
            ((List.range dc.2).map (fun i =>
              hicutsBuildGo leafThreshold fuel
                (rules.filter (fun r =>
                  ruleOverlaps r dc.1 (binLo minVal step i)
                    (binHi minVal maxVal step dc.2 i)))
                (updateRegion reg dc.1
                  (binLo minVal step i, binHi minVal maxVal step dc.2 i))))

/-- The iterative descent of src/hicuts/classifier.rs classify: the
defensive val < start branch yields none; the child index is
min((val-start)/step, num_cuts-1).  An out-of-range child index (a panic in
Rust, impossible for built trees) also yields none.  The loop follows child
pointers, so the number of steps is bounded by the tree height; that bound
is carried as structural fuel (21 = the builder's height bound 20 plus one
suffices for every built tree, proved below). -/
def hicutsDescend (p : FiveTuple) : Nat → HNode → Option (List Rule)
  | _, .leaf rs => some rs
  | 0, .internal _ _ _ _ _ => none
  | fuel + 1, .internal d start step cuts children =>
      if packetVal p d < start then none
      else
        match children.get? (min ((packetVal p d - start) / step) (cuts - 1)) with
        | some c => hicutsDescend p fuel c
        | none => none

/-- Source src/hicuts/classifier.rs: HiCutsClassifier { root }. -/
structure HiCutsClassifier where
  root : HNode

/-- Source src/hicuts/classifier.rs: build with Builder::new(10, 20):
fuel 20 = max_depth 20 minus the initial depth 0. -/
def HiCutsClassifier.build (rules : List Rule) : HiCutsClassifier :=
  ⟨hicutsBuildGo 10 20 rules initRegions⟩

/-- Source src/hicuts/classifier.rs: classify — descend, then leaf linear
scan; the defensive branch surfaces as a none from the descent.  Descent
fuel 21 covers every tree the builder can produce (height ≤ 20). -/
def HiCutsClassifier.classify (c : HiCutsClassifier) (p : FiveTuple) :
    Option Action :=
  match hicutsDescend p 21 c.root with
  | none => none
  | some rs => (firstMatch rs p).map Rule.action

section HiCutsLemmas

/-- Invariant preservation along a left fold. -/
theorem foldl_invariant {α β : Type} (P : β → Prop) (f : β → α → β)
    (l : List α) (init : β) (h0 : P init)
    (hstep : ∀ b a, a ∈ l → P b → P (f b a)) : P (l.foldl f init) := by
  induction l generalizing init with
  | nil => exact h0
  | cons x xs ih =>
      exact ih (f init x) (hstep init x (by simp) h0)
        (fun b a ha hb => hstep b a (by simp [ha]) hb)

/-- Any selection result with at least two cuts refers to a dimension whose
residual region is wide enough: min < max and cuts ≤ width. -/
theorem selectDimensionAndCuts_spec (rules : List Rule) (reg : Regions) :
    2 ≤ (selectDimensionAndCuts rules reg).2 →
      (reg (selectDimensionAndCuts rules reg).1).1 <
          (reg (selectDimensionAndCuts rules reg).1).2 ∧
        (selectDimensionAndCuts rules reg).2 ≤
          (reg (selectDimensionAndCuts rules reg).1).2 -
            (reg (selectDimensionAndCuts rules reg).1).1 + 1 := by
  unfold selectDimensionAndCuts
  set P : Dimension × Nat × Option Nat → Prop := fun st =>
    2 ≤ st.2.1 → (reg st.1).1 < (reg st.1).2 ∧
      st.2.1 ≤ (reg st.1).2 - (reg st.1).1 + 1 with hP
  suffices h : P (allDims.foldl
      (fun st d =>
        let minVal := (reg d).1
        let maxVal := (reg d).2
        if maxVal ≤ minVal then st
        else
          [2, 4, 8, 16].foldl
            (fun st cuts =>
              let rangeLen := maxVal - minVal + 1
              if rangeLen < cuts then st
              else
                let mrb := maxBinCount rules d minVal maxVal cuts
                match st.2.2 with
                | none =>
                    if mrb < rules.length then (d, cuts, some mrb) else st
                | some m =>
                    if mrb < m ∧ mrb < rules.length then (d, cuts, some mrb)
                    else st)
            st)
      ((Dimension.SrcIp, 1, none) : Dimension × Nat × Option Nat)) by
    exact h
  apply foldl_invariant
  · intro h2; simp at h2
  · intro st d _ hst
    by_cases hw : (reg d).2 ≤ (reg d).1
    · simpa [hw] using hst
    · simp only [hw, if_false]
      apply foldl_invariant
      · exact hst
      · intro st' cuts hcuts hst'
        by_cases hr : (reg d).2 - (reg d).1 + 1 < cuts
        · simpa [hr] using hst'
        · simp only [hr, if_false]
          cases hmm : st'.2.2 with
          | none =>
              by_cases hcnt : maxBinCount rules d (reg d).1 (reg d).2 cuts < rules.length
              · simp only [hcnt, if_true]
                intro _
                exact ⟨lt_of_not_le hw, le_of_not_lt hr⟩
              · simpa [hcnt] using hst'
          | some m =>
              by_cases hcnt : maxBinCount rules d (reg d).1 (reg d).2 cuts < m ∧
                  maxBinCount rules d (reg d).1 (reg d).2 cuts < rules.length
              · simp only [hcnt, if_true]
                intro _
                exact ⟨lt_of_not_le hw, le_of_not_lt hr⟩
              · simpa [hcnt] using hst'

/-- Filtering by a predicate implied by matching does not change the
matching sublist. -/
theorem filter_filter_matches {rules : List Rule} {p : FiveTuple}
    {q : Rule → Bool} (h : ∀ r, r.matches p = true → q r = true) :
    (rules.filter q).filter (fun r => r.matches p) =
      rules.filter (fun r => r.matches p) := by
  induction rules with
  | nil => rfl
  | cons x xs ih =>
      by_cases hm : x.matches p = true
      · simp [List.filter_cons, hm, h x hm, ih]
      · by_cases hq : q x = true <;> simp [List.filter_cons, hm, hq, ih]

/-- The packet sits inside every dimension's residual region. -/
def InReg (reg : Regions) (p : FiveTuple) : Prop :=
  ∀ d, (reg d).1 ≤ packetVal p d ∧ packetVal p d ≤ (reg d).2

theorem initRegions_inReg {p : FiveTuple} (h : p.wf) : InReg initRegions p := by
  obtain ⟨h1, h2, h3, h4, h5⟩ := h
  intro d
  cases d <;> simp [initRegions, packetVal] <;> omega

/-- The child bin selected by classify contains the packet's field value. -/
theorem bin_contains {minVal maxVal step cuts v : Nat} (hcuts : 2 ≤ cuts)
    (hlen : cuts ≤ maxVal - minVal + 1)
    (hstep : step = (maxVal - minVal + 1) / cuts)
    (hv1 : minVal ≤ v) (hv2 : v ≤ maxVal) :
    binLo minVal step (min ((v - minVal) / step) (cuts - 1)) ≤ v ∧
      v ≤ binHi minVal maxVal step cuts (min ((v - minVal) / step) (cuts - 1)) := by
  have hcpos : 0 < cuts := by omega
  have hstep1 : 1 ≤ step := by
    subst hstep
    exact (Nat.one_le_div_iff hcpos).mpr hlen
  set a := (v - minVal) / step with ha
  constructor
  · have h1 : min a (cuts - 1) * step ≤ a * step :=
      Nat.mul_le_mul_right _ (min_le_left _ _)
    have h2 : a * step ≤ v - minVal := by
      rw [ha]; exact Nat.div_mul_le_self _ _
    unfold binLo; omega
  · unfold binHi
    by_cases hidx : min a (cuts - 1) = cuts - 1
    · simp [hidx, hv2]
    · have hax : min a (cuts - 1) = a := by omega
      have hne : a ≠ cuts - 1 := by omega
      rw [hax, if_neg hne]
      have hdm := Nat.div_add_mod (v - minVal) step
      rw [← ha] at hdm
      have hmlt : (v - minVal) % step < step := Nat.mod_lt _ (by omega)
      have hmul : (a + 1) * step = a * step + step := by ring
      have hsa : step * a = a * step := Nat.mul_comm _ _
      omega

/-- Main HiCuts descent theorem: for any built tree and in-region packet the
descent reaches a leaf (never the defensive branch, never an out-of-range
child) and that leaf holds exactly the matching rules of the input. -/
theorem hicutsDescend_buildGo (leafThreshold : Nat) :
    ∀ (fuel dfuel : Nat) (rules : List Rule) (reg : Regions) (p : FiveTuple),
      fuel < dfuel → InReg reg p →
      ∃ rs, hicutsDescend p dfuel (hicutsBuildGo leafThreshold fuel rules reg) = some rs ∧
        rs.filter (fun r => r.matches p) = rules.filter (fun r => r.matches p) := by
  intro fuel
  induction fuel with
  | zero =>
      intro dfuel rules reg p _ _
      refine ⟨rules, ?_, rfl⟩
      cases dfuel <;> simp [hicutsBuildGo, hicutsDescend]
  | succ fuel ih =>
      intro dfuel rules reg p hd hreg
      cases dfuel with
      | zero => omega
      | succ dfuel =>
      have hd2 : fuel < dfuel := by omega
      rw [hicutsBuildGo]
      by_cases hstop : rules.length ≤ leafThreshold
      · simp only [hstop, if_true]
        exact ⟨rules, by simp [hicutsDescend], rfl⟩
      · simp only [hstop, if_false]
        by_cases hdc : (selectDimensionAndCuts rules reg).2 ≤ 1
        · simp only [hdc, if_true]
          exact ⟨rules, by simp [hicutsDescend], rfl⟩
        · simp only [hdc, if_false]
          set dc := selectDimensionAndCuts rules reg with hdcdef
          have h2 : 2 ≤ dc.2 := by omega
          obtain ⟨hmin, hlen⟩ := selectDimensionAndCuts_spec rules reg h2
          set minVal := (reg dc.1).1 with hminV
          set maxVal := (reg dc.1).2 with hmaxV
          set step := (maxVal - minVal + 1) / dc.2 with hstepdef
          set v := packetVal p dc.1 with hvdef
          have hv1 : minVal ≤ v := (hreg dc.1).1
          have hv2 : v ≤ maxVal := (hreg dc.1).2
          set idx := min ((v - minVal) / step) (dc.2 - 1) with hidxdef
          have hidxlt : idx < dc.2 := by omega
          obtain ⟨hlo, hhi⟩ := bin_contains h2 hlen hstepdef hv1 hv2
          rw [← hidxdef] at hlo hhi
          rw [hicutsDescend]
          rw [if_neg (by omega)]
          have hget : ((List.range dc.2).map (fun i =>
              hicutsBuildGo leafThreshold fuel
                (rules.filter (fun r =>
                  ruleOverlaps r dc.1 (binLo minVal step i)
                    (binHi minVal maxVal step dc.2 i)))
                (updateRegion reg dc.1
                  (binLo minVal step i, binHi minVal maxVal step dc.2 i)))).get? idx =
              some (hicutsBuildGo leafThreshold fuel
                (rules.filter (fun r =>
                  ruleOverlaps r dc.1 (binLo minVal step idx)
                    (binHi minVal maxVal step dc.2 idx)))
                (updateRegion reg dc.1
                  (binLo minVal step idx, binHi minVal maxVal step dc.2 idx))) := by
            rw [List.get?_map, List.get?_range hidxlt, Option.map_some']
          rw [hget]
          have hreg' : InReg (updateRegion reg dc.1
              (binLo minVal step idx, binHi minVal maxVal step dc.2 idx)) p := by
            intro d
            by_cases hd : d = dc.1
            · subst hd
              simp only [updateRegion, if_pos rfl]
              exact ⟨hlo, hhi⟩
            · simp only [updateRegion, if_neg hd]
              exact hreg d
          obtain ⟨rs, hrs, hfil⟩ := ih dfuel _ _ p hd2 hreg'
          refine ⟨rs, hrs, ?_⟩
          rw [hfil]
          apply filter_filter_matches
          intro r hm
          have hr := matches_getRange hm dc.1
          simp only [ruleOverlaps, Bool.and_eq_true, decide_eq_true_eq]
          omega

/-- HiCuts classification equals the input-order first-match scan for
well-formed packets. -/
theorem hicuts_eq_firstMatch (rules : List Rule) (p : FiveTuple) (h : p.wf) :
    (HiCutsClassifier.build rules).classify p =
      (firstMatch rules p).map Rule.action := by
  obtain ⟨rs, hrs, hfil⟩ :=
    hicutsDescend_buildGo 10 20 21 rules initRegions p (by omega)
      (initRegions_inReg h)
  simp only [HiCutsClassifier.classify, HiCutsClassifier.build, hrs]
  rw [firstMatch_eq_head_filter, firstMatch_eq_head_filter, hfil]

/-- Height of a HiCuts tree. -/
def HNode.height : HNode → Nat
  | .leaf _ => 0
  | .internal _ _ _ _ children =>
      1 + (children.attach.map (fun c => height c.1)).foldl max 0
termination_by n => sizeOf n
decreasing_by
  have := List.sizeOf_lt_of_mem c.2
  simp only [HNode.internal.sizeOf_spec]
  omega

theorem foldl_max_le {l : List Nat} {b : Nat} (h : ∀ x ∈ l, x ≤ b) :
    l.foldl max 0 ≤ b := by
  apply foldl_invariant (fun x => x ≤ b)
  · exact Nat.zero_le b
  · intro x a ha hx
    exact max_le hx (h a ha)

theorem hicutsBuildGo_height (leafThreshold : Nat) :
    ∀ (fuel : Nat) (rules : List Rule) (reg : Regions),
      (hicutsBuildGo leafThreshold fuel rules reg).height ≤ fuel := by
  intro fuel
  induction fuel with
  | zero =>
      intro rules reg
      simp [hicutsBuildGo, HNode.height]
  | succ fuel ih =>
      intro rules reg
      rw [hicutsBuildGo]
      by_cases hstop : rules.length ≤ leafThreshold
      · simp [hstop, HNode.height]
      · simp only [hstop, if_false]
        by_cases hdc : (selectDimensionAndCuts rules reg).2 ≤ 1
        · simp [hdc, HNode.height]
        · simp only [hdc, if_false]
          rw [HNode.height]
          have hb : ∀ x ∈ (((List.range (selectDimensionAndCuts rules reg).2).map
              (fun i => hicutsBuildGo leafThreshold fuel
                (rules.filter (fun r =>
                  ruleOverlaps r (selectDimensionAndCuts rules reg).1
                    (binLo (reg (selectDimensionAndCuts rules reg).1).1
                      (((reg (selectDimensionAndCuts rules reg).1).2 -
                        (reg (selectDimensionAndCuts rules reg).1).1 + 1) /
                          (selectDimensionAndCuts rules reg).2) i)
                    (binHi (reg (selectDimensionAndCuts rules reg).1).1
                      (reg (selectDimensionAndCuts rules reg).1).2
                      (((reg (selectDimensionAndCuts rules reg).1).2 -
                        (reg (selectDimensionAndCuts rules reg).1).1 + 1) /
                          (selectDimensionAndCuts rules reg).2)
                      (selectDimensionAndCuts rules reg).2 i)))
                (updateRegion reg (selectDimensionAndCuts rules reg).1
                  (binLo (reg (selectDimensionAndCuts rules reg).1).1
                      (((reg (selectDimensionAndCuts rules reg).1).2 -
                        (reg (selectDimensionAndCuts rules reg).1).1 + 1) /
                          (selectDimensionAndCuts rules reg).2) i,
                   binHi (reg (selectDimensionAndCuts rules reg).1).1
                      (reg (selectDimensionAndCuts rules reg).1).2
                      (((reg (selectDimensionAndCuts rules reg).1).2 -
                        (reg (selectDimensionAndCuts rules reg).1).1 + 1) /
                          (selectDimensionAndCuts rules reg).2)
                      (selectDimensionAndCuts rules reg).2 i)))).attach.map
                (fun c => HNode.height c.1)), x ≤ fuel := by
            intro x hx
            obtain ⟨c, _, hcx⟩ := List.mem_map.mp hx
            obtain ⟨i, _, hic⟩ := List.mem_map.mp c.2
            rw [← hcx, ← hic]
            exact ih _ _
          have := foldl_max_le hb
          omega

end HiCutsLemmas

/-- Source src/tss/utils.rs: struct Prefix { value, len } (named Cidr here). -/
structure Cidr where
  value : Nat
  len : Nat
deriving DecidableEq, Repr

/-- Source src/tss/utils.rs: the inner loop of range_to_prefixes_u32
choosing best_len: try lengths upward from the alignment bound and keep the
first whose block still ends at or below max.  The source starts the scan at
alignment_len = bits - trailing_zeros(current) (0 when trailing_zeros ≥
bits); length l is at least that bound exactly when 2^(bits-l) divides
current, so the scan over all lengths with the divisibility conjunct is the
same first hit.  The fallback bits is the source's best_len initialiser and
is never reached when current ≤ max. -/
def bestLen (bits cur maxv : Nat) : Nat :=
  (((List.range (bits + 1)).filter
    (fun l => decide (2 ^ (bits - l) ∣ cur) &&
      decide (cur + 2 ^ (bits - l) - 1 ≤ maxv))).head?).getD bits

/-- Source src/tss/utils.rs: the while loop of range_to_prefixes_u32: emit
the block at current, advance by its size, stop when the next start passes
max.  The loop advances current by at least one each iteration, so
max + 1 - current bounds the remaining iterations; that bound is carried as
structural fuel (it is exact at every call, so the fuel-0 arm is never
reached from range_to_prefixes). -/
def rtpGo (bits maxv : Nat) : Nat → Nat → List Cidr
  | 0, _ => []
  | fuel + 1, current =>
      if maxv < current then []
      else
        ⟨current, bestLen bits current maxv⟩ ::
          (if maxv < current + 2 ^ (bits - bestLen bits current maxv) then []
           else rtpGo bits maxv fuel
             (current + 2 ^ (bits - bestLen bits current maxv)))

/-- Source src/tss/utils.rs: range_to_prefixes_u32 (and the u16/u8 wrappers,
which call the same routine with bits = 16 or 8): empty on an inverted
range, otherwise the greedy loop from min. -/
def range_to_prefixes (bits minv maxv : Nat) : List Cidr :=
  if maxv < minv then [] else rtpGo bits maxv (maxv + 1 - minv) minv

/-- Source src/tss/classifier.rs: struct Tuple — prefix lengths of the five
fields. -/
structure TupleLens where
  src_ip_len : Nat
  dst_ip_len : Nat
  src_port_len : Nat
  dst_port_len : Nat
  proto_len : Nat
deriving DecidableEq, Repr

/-- Source src/tss/classifier.rs: Tuple::is_subset_of — every length at most
the other's. -/
def TupleLens.is_subset_of (a b : TupleLens) : Bool :=
  a.src_ip_len ≤ b.src_ip_len && a.dst_ip_len ≤ b.dst_ip_len &&
    a.src_port_len ≤ b.src_port_len && a.dst_port_len ≤ b.dst_port_len &&
    a.proto_len ≤ b.proto_len

/-- Source src/tss/classifier.rs: Tuple::bit_difference (only ever called on
a subset pair, so the u32 subtractions cannot underflow; Nat subtraction
agrees there). -/
def TupleLens.bit_difference (a b : TupleLens) : Nat :=
  (b.src_ip_len - a.src_ip_len) + (b.dst_ip_len - a.dst_ip_len) +
    (b.src_port_len - a.src_port_len) + (b.dst_port_len - a.dst_port_len) +
    (b.proto_len - a.proto_len)

/-- Source src/tss/classifier.rs: struct TupleKey — the masked field
values. -/
structure TupleKey where
  src_ip : Nat
  dst_ip : Nat
  src_port : Nat
  dst_port : Nat
  proto : Nat
deriving DecidableEq, Repr

/-- Source src/tss/classifier.rs: mask_u32 / mask_u16 / mask_u8, width as a
parameter: zero the low bits-len bits (len 0 gives 0, len ≥ bits keeps the
value); for v < 2^bits the Rust expression v & (!0 << (bits-len)) equals
clearing the low bits, rendered arithmetically. -/
def maskBits (bits v len : Nat) : Nat :=
  if len = 0 then 0
  else if bits ≤ len then v
  else v / 2 ^ (bits - len) * 2 ^ (bits - len)

/-- Source src/tss/classifier.rs: TupleKey::from_values — mask the given
raw values with the target tuple's lengths. -/
def TupleKey.from_values (sip dip sp dp pr : Nat) (t : TupleLens) : TupleKey :=
  ⟨maskBits 32 sip t.src_ip_len, maskBits 32 dip t.dst_ip_len,
   maskBits 16 sp t.src_port_len, maskBits 16 dp t.dst_port_len,
   maskBits 8 pr t.proto_len⟩

/-- Source src/tss/classifier.rs: TupleKey::new — mask the packet fields
with the tuple's lengths. -/
def TupleKey.ofPacket (p : FiveTuple) (t : TupleLens) : TupleKey :=
  TupleKey.from_values p.src_ip p.dst_ip p.src_port p.dst_port p.proto t

/-- Source src/tss/classifier.rs: TSSClassifier::expand_rule — Cartesian
product of the per-dimension prefix decompositions; each element carries the
combination's tuple of lengths together with the raw prefix values. -/
def expand_rule (r : Rule) : List (TupleLens × Nat × Nat × Nat × Nat × Nat) :=
  (range_to_prefixes 32 r.src_ip.min r.src_ip.max).flatMap (fun s =>
    (range_to_prefixes 32 r.dst_ip.min r.dst_ip.max).flatMap (fun d =>
      (range_to_prefixes 16 r.src_port.min r.src_port.max).flatMap (fun sp =>
        (range_to_prefixes 16 r.dst_port.min r.dst_port.max).flatMap (fun dp =>
          (range_to_prefixes 8 r.proto.min r.proto.max).map (fun pr =>
            (⟨s.len, d.len, sp.len, dp.len, pr.len⟩,
              s.value, d.value, sp.value, dp.value, pr.value))))))

/-- A tuple's hash table: key to bucket.  hashbrown::HashMap is embedded as
an association list in insertion order. -/
abbrev TssTable := List (TupleKey × List Rule)

/-- The outer map: tuple to table, again in insertion order; the
classification result is proved independent of the iteration order the real
hash map would use. -/
abbrev TssTables := List (TupleLens × TssTable)

/-- Association-list lookup (HashMap::get). -/
def assocFind {κ ν : Type} [DecidableEq κ] (k : κ) : List (κ × ν) → Option ν
  | [] => none
  | (k₂, v) :: rest => if k₂ = k then some v else assocFind k rest

/-- HashMap::entry(k).or_insert(dflt) followed by an in-place update of the
entry: existing entries stay in place, a missing key is appended. -/
def assocUpdate {κ ν : Type} [DecidableEq κ] (k : κ) (f : ν → ν) (dflt : ν) :
    List (κ × ν) → List (κ × ν)
  | [] => [(k, f dflt)]
  | (k₂, v) :: rest =>
      if k₂ = k then (k₂, f v) :: rest else (k₂, v) :: assocUpdate k f dflt rest

/-- Source src/tss/classifier.rs build: the TupleMerge target search over
tables.keys(): among existing tuples that are per-field subsets of the
rule's tuple within MAX_MERGE_BITS = 12 total bits, keep the first of
strictly minimal difference.  The initial u32::MAX min_diff is modelled by
the none state (any difference is below u32::MAX). -/
def findBestTuple (tables : TssTables) (rt : TupleLens) : Option TupleLens :=
  (tables.foldl
    (fun (best : Option (TupleLens × Nat)) entry =>
      if entry.1.is_subset_of rt then
        let diff := entry.1.bit_difference rt
        match best with
        | none => if diff ≤ 12 then some (entry.1, diff) else none
        | some (bt, bd) =>
            if diff < bd ∧ diff ≤ 12 then some (entry.1, diff)
            else some (bt, bd)
      else best)
    none).map Prod.fst

/-- Source src/tss/classifier.rs build, per expanded combination: choose the
target tuple (merge target or the rule's own tuple), derive the key by
masking the raw prefix values with the target's lengths, append the rule to
the bucket, and re-sort the bucket by priority. -/
def tssInsertPart (tables : TssTables) (rule : Rule) :
    TupleLens × Nat × Nat × Nat × Nat × Nat → TssTables
  | (rt, sip, dip, sp, dp, pr) =>
      let target := (findBestTuple tables rt).getD rt
      let key := TupleKey.from_values sip dip sp dp pr target
      assocUpdate target
        (fun table =>
          assocUpdate key (fun bucket => sortByPriority (bucket ++ [rule])) []
            table)
        [] tables

/-- Source src/tss/classifier.rs: TSSClassifier::build — insert every
expanded combination of every rule. -/
def TSSbuild (rules : List Rule) : TssTables :=
  rules.foldl
    (fun tables r =>
      (expand_rule r).foldl (fun tables part => tssInsertPart tables r part)
        tables)
    []

/-- Source src/tss/classifier.rs classify, inner bucket walk: stop as soon
as the rule at hand cannot beat the best (bucket sorted ascending by
priority); on a full match update the best and stop this bucket. -/
def scanBucket (p : FiveTuple) : List Rule → Option Rule → Option Rule
  | [], best => best
  | r :: rest, best =>
      match best with
      | some b =>
          if b.priority ≤ r.priority then some b
          else if r.matches p then
            (if r.priority < b.priority then some r else some b)
          else scanBucket p rest (some b)
      | none =>
          if r.matches p then some r else scanBucket p rest none

/-- Source src/tss/classifier.rs classify, outer loop over all tables:
probe each table with the packet key and walk the hit bucket. -/
def tssScanAll (p : FiveTuple) (tables : TssTables) (best : Option Rule) :
    Option Rule :=
  tables.foldl
    (fun best entry =>
      match assocFind (TupleKey.ofPacket p entry.1) entry.2 with
      | some bucket => scanBucket p bucket best
      | none => best)
    best

/-- Source src/tss/classifier.rs: TSSClassifier { tables }. -/
structure TSSClassifier where
  tables : TssTables

/-- Source src/tss/classifier.rs: build. -/
def TSSClassifier.build (rules : List Rule) : TSSClassifier :=
  ⟨TSSbuild rules⟩

/-- Source src/tss/classifier.rs: classify — best match across all tables,
then its action. -/
def TSSClassifier.classify (c : TSSClassifier) (p : FiveTuple) : Option Action :=
  (tssScanAll p c.tables none).map Rule.action

section AssocLemmas

variable {κ ν : Type} [DecidableEq κ]

theorem assocFind_assocUpdate_self (k : κ) (f : ν → ν) (d : ν) (l : List (κ × ν)) :
    assocFind k (assocUpdate k f d l) = some (f ((assocFind k l).getD d)) := by
  induction l with
  | nil => simp [assocFind, assocUpdate]
  | cons e rest ih =>
      obtain ⟨k₂, v⟩ := e
      by_cases hk : k₂ = k
      · simp [assocFind, assocUpdate, hk]
      · simp [assocFind, assocUpdate, hk, ih]

theorem assocFind_assocUpdate_ne {k key : κ} (f : ν → ν) (d : ν)
    (l : List (κ × ν)) (h : k ≠ key) :
    assocFind k (assocUpdate key f d l) = assocFind k l := by
  have hne : ¬ key = k := fun hh => h hh.symm
  induction l with
  | nil => simp [assocFind, assocUpdate, hne]
  | cons e rest ih =>
      obtain ⟨k₂, v⟩ := e
      by_cases hk : k₂ = key
      · subst hk
        simp [assocFind, assocUpdate, hne]
      · by_cases hk2 : k₂ = k <;> simp [assocFind, assocUpdate, hk, hk2, ih, h, hne]

theorem assocUpdate_self_mem (k : κ) (f : ν → ν) (d : ν) (l : List (κ × ν)) :
    (k, f ((assocFind k l).getD d)) ∈ assocUpdate k f d l := by
  induction l with
  | nil => simp [assocFind, assocUpdate]
  | cons e rest ih =>
      obtain ⟨k₂, v⟩ := e
      by_cases hk : k₂ = k
      · subst hk; simp [assocFind, assocUpdate]
      · simp [assocFind, assocUpdate, hk, ih]

/-- Every entry of an updated association list is an old entry, the updated
image of an old entry at the key, or the fresh default entry. -/
theorem assocUpdate_mem {k : κ} {f : ν → ν} {d : ν} {l : List (κ × ν)}
    {e : κ × ν} (he : e ∈ assocUpdate k f d l) :
    e ∈ l ∨ (∃ v, (k, v) ∈ l ∧ e = (k, f v)) ∨ e = (k, f d) := by
  induction l with
  | nil => simp [assocUpdate] at he; tauto
  | cons e₂ rest ih =>
      obtain ⟨k₂, v⟩ := e₂
      by_cases hk : k₂ = k
      · subst hk
        simp only [assocUpdate, if_pos rfl] at he
        rcases List.mem_cons.mp he with he | he
        · exact Or.inr (Or.inl ⟨v, by simp, he⟩)
        · exact Or.inl (List.mem_cons_of_mem _ he)
      · simp only [assocUpdate, if_neg hk] at he
        rcases List.mem_cons.mp he with he | he
        · exact Or.inl (by simp [he])
        · rcases ih he with h | ⟨v₂, hv₂, hev⟩ | h
          · exact Or.inl (List.mem_cons_of_mem _ h)
          · exact Or.inr (Or.inl ⟨v₂, List.mem_cons_of_mem _ hv₂, hev⟩)
          · exact Or.inr (Or.inr h)

/-- Every old entry survives an update, either unchanged or (at the updated
key) with the function applied. -/
theorem assocUpdate_entry_cases {k : κ} {f : ν → ν} {d : ν} {l : List (κ × ν)}
    {e : κ × ν} (he : e ∈ l) :
    e ∈ assocUpdate k f d l ∨ (e.1 = k ∧ (e.1, f e.2) ∈ assocUpdate k f d l) := by
  induction l with
  | nil => cases he
  | cons e₂ rest ih =>
      obtain ⟨k₂, v⟩ := e₂
      by_cases hk : k₂ = k
      · subst hk
        simp only [assocUpdate, if_pos rfl]
        rcases List.mem_cons.mp he with he | he
        · subst he
          exact Or.inr ⟨rfl, by simp⟩
        · exact Or.inl (List.mem_cons_of_mem _ he)
      · simp only [assocUpdate, if_neg hk]
        rcases List.mem_cons.mp he with he | he
        · subst he; exact Or.inl (by simp)
        · rcases ih he with h | ⟨h1, h2⟩
          · exact Or.inl (List.mem_cons_of_mem _ h)
          · exact Or.inr ⟨h1, List.mem_cons_of_mem _ h2⟩

end AssocLemmas

section PrefixLemmas

theorem bestLen_spec (bits cur maxv : Nat) (h : cur ≤ maxv) :
    2 ^ (bits - bestLen bits cur maxv) ∣ cur ∧
      cur + 2 ^ (bits - bestLen bits cur maxv) - 1 ≤ maxv ∧
      bestLen bits cur maxv ≤ bits := by
  set fl := (List.range (bits + 1)).filter
    (fun l => decide (2 ^ (bits - l) ∣ cur) &&
      decide (cur + 2 ^ (bits - l) - 1 ≤ maxv)) with hfl
  have hmem : bits ∈ fl := by
    rw [hfl]
    refine List.mem_filter.mpr ⟨List.mem_range.mpr (by omega), ?_⟩
    simp [Nat.sub_self, h]
  have hbl : bestLen bits cur maxv = fl.head?.getD bits := by
    rw [bestLen, hfl]
  cases hflc : fl with
  | nil => rw [hflc] at hmem; cases hmem
  | cons a as =>
      have ha : a ∈ fl := by rw [hflc]; exact List.mem_cons_self a as
      have hmf := List.mem_filter.mp (hfl ▸ ha)
      rw [hbl, hflc]
      simp only [List.head?_cons, Option.getD_some]
      obtain ⟨har, hpred⟩ := hmf
      simp only [Bool.and_eq_true, decide_eq_true_eq] at hpred
      exact ⟨hpred.1, hpred.2, by have := List.mem_range.mp har; omega⟩

/-- Full behaviour of the greedy loop on a non-empty range [current, max]:
the emitted blocks tile the interval exactly (coverage both ways), their
sizes add up to the interval's cardinality, earlier blocks lie strictly
before later ones (disjointness), and every block is aligned to its own
length. -/
theorem rtpGo_spec (bits maxv : Nat) :
    ∀ (fuel current : Nat), maxv + 1 - current ≤ fuel → current ≤ maxv →
      (∀ x, (∃ c ∈ rtpGo bits maxv fuel current,
          c.value ≤ x ∧ x ≤ c.value + 2 ^ (bits - c.len) - 1) ↔
        (current ≤ x ∧ x ≤ maxv)) ∧
      ((rtpGo bits maxv fuel current).map (fun c => 2 ^ (bits - c.len))).sum =
        maxv + 1 - current ∧
      (rtpGo bits maxv fuel current).Pairwise
        (fun c₁ c₂ => c₁.value + 2 ^ (bits - c₁.len) - 1 < c₂.value) ∧
      (∀ c ∈ rtpGo bits maxv fuel current,
        2 ^ (bits - c.len) ∣ c.value ∧ c.len ≤ bits ∧ current ≤ c.value) := by
  intro fuel
  induction fuel with
  | zero => intro current hn hc; omega
  | succ n ih =>
      intro current hn hc
      obtain ⟨hdvd, hfit, hlenb⟩ := bestLen_spec bits current maxv hc
      have hsize1 : 1 ≤ 2 ^ (bits - bestLen bits current maxv) :=
        Nat.one_le_two_pow
      simp only [rtpGo, if_neg (show ¬ maxv < current by omega)]
      set l := bestLen bits current maxv with hl
      set size := 2 ^ (bits - l) with hsizedef
      by_cases hnext : maxv < current + size
      · -- last block: it ends exactly at maxv
        have hend : current + size - 1 = maxv := by omega
        simp only [hnext, if_true]
        refine ⟨?_, ?_, ?_, ?_⟩
        · intro x
          constructor
          · rintro ⟨c, hcmem, hc1, hc2⟩
            simp only [List.mem_cons, List.not_mem_nil, or_false] at hcmem
            subst hcmem
            simp only at hc1 hc2
            omega
          · intro hx
            exact ⟨⟨current, l⟩, by simp, by simp; omega⟩
        · simp only [List.map_cons, List.map_nil, List.sum_cons, List.sum_nil]
          omega
        · simp
        · intro c hcmem
          simp only [List.mem_cons, List.not_mem_nil, or_false] at hcmem
          subst hcmem
          exact ⟨hdvd, hlenb, le_refl _⟩
      · simp only [hnext, if_false]
        have hc2 : current + size ≤ maxv := by omega
        have hn2 : maxv + 1 - (current + size) ≤ n := by omega
        obtain ⟨ihcov, ihsum, ihdisj, ihal⟩ := ih (current + size) hn2 hc2
        refine ⟨?_, ?_, ?_, ?_⟩
        · intro x
          constructor
          · rintro ⟨c, hcmem, hc1, hc2x⟩
            rcases List.mem_cons.mp hcmem with hcm | hcm
            · subst hcm
              simp only at hc1 hc2x
              omega
            · have := (ihcov x).mp ⟨c, hcm, hc1, hc2x⟩
              omega
          · intro hx
            by_cases hxin : x ≤ current + size - 1
            · exact ⟨⟨current, l⟩, by simp, by simp; omega⟩
            · obtain ⟨c, hcm, hcb⟩ := (ihcov x).mpr (by omega)
              exact ⟨c, List.mem_cons_of_mem _ hcm, hcb⟩
        · simp only [List.map_cons, List.sum_cons, ihsum]
          omega
        · refine List.Pairwise.cons ?_ ihdisj
          intro c hcm
          have := (ihal c hcm).2.2
          simp only
          omega
        · intro c hcm
          rcases List.mem_cons.mp hcm with hcm | hcm
          · subst hcm
            exact ⟨hdvd, hlenb, le_refl _⟩
          · obtain ⟨h1, h2, h3⟩ := ihal c hcm
            exact ⟨h1, h2, by omega⟩

end PrefixLemmas

section MaskLemmas

/-- Masking with any coarsening of a block's own length cannot tell a value
inside the block from the block's base value: this is why probing a merge
target table with the packet's masked fields finds the bucket keyed by the
rule's masked prefix values. -/
theorem maskBits_eq_of_block {w len t x value : Nat}
    (ht : t ≤ len) (hlen : len ≤ w)
    (hal : 2 ^ (w - len) ∣ value)
    (h1 : value ≤ x) (h2 : x ≤ value + 2 ^ (w - len) - 1) :
    maskBits w x t = maskBits w value t := by
  by_cases ht0 : t = 0
  · simp [maskBits, ht0]
  · by_cases htw : w ≤ t
    · have hw : len = w := le_antisymm hlen (le_trans htw ht)
      have hone : 2 ^ (w - len) = 1 := by rw [hw, Nat.sub_self, pow_zero]
      rw [hone] at h2
      have hx : x = value := by omega
      rw [hx]
    · obtain ⟨q, hq⟩ := hal
      set s := 2 ^ (w - len) with hs
      set m := 2 ^ (len - t) with hm
      have hspos : 0 < s := Nat.pos_pow_of_pos _ (by omega)
      have hmpos : 0 < m := Nat.pos_pow_of_pos _ (by omega)
      have hs2 : 2 ^ (w - t) = s * m := by
        rw [hs, hm, ← pow_add]
        congr 1
        omega
      have hdm := Nat.div_add_mod q m
      set Q := q / m with hQ
      set R := q % m with hR
      have hRlt : R < m := Nat.mod_lt _ hmpos
      have hval : value = (s * m) * Q + s * R := by
        calc value = s * q := hq
        _ = s * (m * Q + R) := by rw [hdm]
        _ = (s * m) * Q + s * R := by ring
      have hsm1 : s * R + s ≤ s * m := by
        calc s * R + s = s * (R + 1) := by ring
        _ ≤ s * m := Nat.mul_le_mul_left s (by omega)
      have hd : x = (s * m) * Q + (s * R + (x - value)) := by omega
      have hremlt : s * R + (x - value) < s * m := by omega
      have hsmpos : 0 < s * m := Nat.mul_pos hspos hmpos
      have hx2 : x / (s * m) = Q := by
        rw [hd, Nat.mul_add_div hsmpos, Nat.div_eq_of_lt hremlt]
        omega
      have hv2 : value / (s * m) = Q := by
        rw [hval, Nat.mul_add_div hsmpos, Nat.div_eq_of_lt (by omega)]
        omega
      simp only [maskBits, ht0, htw, if_false]
      rw [hs2, hx2, hv2]

end MaskLemmas

section TssBuildLemmas

/-- Structural invariant of the built tables (claim C8 and soundness): every
bucket is priority-sorted and only holds input rules. -/
theorem TSSbuild_invariant (rules : List Rule) :
    ∀ e ∈ TSSbuild rules, ∀ kb ∈ e.2, PrioSorted kb.2 ∧ ∀ r ∈ kb.2, r ∈ rules := by
  unfold TSSbuild
  refine foldl_invariant
    (fun (tables : TssTables) =>
      ∀ e ∈ tables, ∀ kb ∈ e.2, PrioSorted kb.2 ∧ ∀ r ∈ kb.2, r ∈ rules)
    _ rules [] ?_ ?_
  · intro e he; cases he
  · intro tables r hr hinv
    refine foldl_invariant
      (fun (tables : TssTables) =>
        ∀ e ∈ tables, ∀ kb ∈ e.2, PrioSorted kb.2 ∧ ∀ r ∈ kb.2, r ∈ rules)
      _ (expand_rule r) tables ?_ ?_
    · exact hinv
    · intro tables₂ part _ hinv₂
      obtain ⟨rt, sip, dip, sp, dp, pr⟩ := part
      intro e he kb hkb
      simp only [tssInsertPart] at he
      rcases assocUpdate_mem he with he | ⟨tb, htb, hetb⟩ | he
      · exact hinv₂ e he kb hkb
      · subst hetb
        simp only at hkb
        rcases assocUpdate_mem hkb with hkb | ⟨b, hb, hkbb⟩ | hkb
        · exact hinv₂ _ htb kb hkb
        · subst hkbb
          constructor
          · exact sortByPriority_sorted _
          · intro r₂ hr₂
            rcases List.mem_append.mp (mem_sortByPriority.mp hr₂) with h | h
            · exact (hinv₂ _ htb (_, b) hb).2 r₂ h
            · simp only [List.mem_singleton] at h
              subst h; exact hr
        · subst hkb
          constructor
          · exact sortByPriority_sorted _
          · intro r₂ hr₂
            rcases List.mem_append.mp (mem_sortByPriority.mp hr₂) with h | h
            · cases h
            · simp only [List.mem_singleton] at h
              subst h; exact hr
      · subst he
        simp only at hkb
        rcases assocUpdate_mem hkb with hkb | ⟨b, hb, hkbb⟩ | hkb
        · cases hkb
        · cases hb
        · subst hkb
          constructor
          · exact sortByPriority_sorted _
          · intro r₂ hr₂
            rcases List.mem_append.mp (mem_sortByPriority.mp hr₂) with h | h
            · cases h
            · simp only [List.mem_singleton] at h
              subst h; exact hr

end TssBuildLemmas

section TssScanLemmas

theorem assocFind_mem {κ ν : Type} [DecidableEq κ] {k : κ} {l : List (κ × ν)}
    {v : ν} (h : assocFind k l = some v) : (k, v) ∈ l := by
  induction l with
  | nil => simp [assocFind] at h
  | cons e rest ih =>
      obtain ⟨k₂, v₂⟩ := e
      by_cases hk : k₂ = k
      · subst hk
        have hv : some v₂ = some v := by simpa [assocFind] using h
        injection hv with hv
        subst hv; simp
      · simp only [assocFind, if_neg hk] at h
        exact List.mem_cons_of_mem _ (ih h)

theorem scanBucket_sound {p : FiveTuple} :
    ∀ (bucket : List Rule) (best : Option Rule) (s : Rule),
      scanBucket p bucket best = some s →
      best = some s ∨ (s ∈ bucket ∧ s.matches p = true) := by
  intro bucket
  induction bucket with
  | nil => intro best s h; exact Or.inl h
  | cons r rest ih =>
      intro best s h
      cases best with
      | some b =>
          simp only [scanBucket] at h
          by_cases h1 : b.priority ≤ r.priority
          · rw [if_pos h1] at h
            exact Or.inl h
          · rw [if_neg h1] at h
            by_cases hm : r.matches p
            · rw [if_pos hm] at h
              by_cases h2 : r.priority < b.priority
              · rw [if_pos h2] at h
                injection h with h
                subst h
                exact Or.inr ⟨by simp, hm⟩
              · rw [if_neg h2] at h
                exact Or.inl h
            · simp only [hm, Bool.false_eq_true, if_false] at h
              rcases ih (some b) s h with h | ⟨h3, h4⟩
              · exact Or.inl h
              · exact Or.inr ⟨List.mem_cons_of_mem _ h3, h4⟩
      | none =>
          simp only [scanBucket] at h
          by_cases hm : r.matches p
          · rw [if_pos hm] at h
            injection h with h
            subst h
            exact Or.inr ⟨by simp, hm⟩
          · simp only [hm, Bool.false_eq_true, if_false] at h
            rcases ih none s h with h | ⟨h3, h4⟩
            · cases h
            · exact Or.inr ⟨List.mem_cons_of_mem _ h3, h4⟩

theorem scanBucket_mono {p : FiveTuple} :
    ∀ (bucket : List Rule) (b : Rule),
      ∃ s, scanBucket p bucket (some b) = some s ∧ s.priority ≤ b.priority := by
  intro bucket
  induction bucket with
  | nil => intro b; exact ⟨b, rfl, le_refl _⟩
  | cons r rest ih =>
      intro b
      simp only [scanBucket]
      by_cases h1 : b.priority ≤ r.priority
      · rw [if_pos h1]
        exact ⟨b, rfl, le_refl _⟩
      · rw [if_neg h1]
        by_cases hm : r.matches p
        · rw [if_pos hm]
          by_cases h2 : r.priority < b.priority
          · rw [if_pos h2]
            exact ⟨r, rfl, le_of_lt h2⟩
          · rw [if_neg h2]
            exact ⟨b, rfl, le_refl _⟩
        · simp only [hm, Bool.false_eq_true, if_false]
          exact ih b

theorem scanBucket_min {p : FiveTuple} :
    ∀ (bucket : List Rule) (best : Option Rule) (r : Rule),
      PrioSorted bucket → r ∈ bucket → r.matches p = true →
      ∃ s, scanBucket p bucket best = some s ∧ s.priority ≤ r.priority := by
  intro bucket
  induction bucket with
  | nil => intro best r _ hr; cases hr
  | cons h t ih =>
      intro best r hs hr hm
      have hhr : h.priority ≤ r.priority := by
        rcases List.mem_cons.mp hr with hr | hr
        · subst hr; exact le_refl _
        · rcases hs with _ | ⟨hh, _⟩
          exact hh r hr
      cases best with
      | some b =>
          simp only [scanBucket]
          by_cases h1 : b.priority ≤ h.priority
          · rw [if_pos h1]
            exact ⟨b, rfl, le_trans h1 hhr⟩
          · rw [if_neg h1]
            by_cases hmh : h.matches p
            · rw [if_pos hmh]
              by_cases h2 : h.priority < b.priority
              · rw [if_pos h2]
                exact ⟨h, rfl, hhr⟩
              · rw [if_neg h2]
                exact ⟨b, rfl, by omega⟩
            · simp only [hmh, Bool.false_eq_true, if_false]
              have hrt : r ∈ t := by
                rcases List.mem_cons.mp hr with hr | hr
                · subst hr; rw [hm] at hmh; cases hmh rfl
                · exact hr
              rcases hs with _ | ⟨_, hts⟩
              exact ih (some b) r hts hrt hm
      | none =>
          simp only [scanBucket]
          by_cases hmh : h.matches p
          · rw [if_pos hmh]
            exact ⟨h, rfl, hhr⟩
          · simp only [hmh, Bool.false_eq_true, if_false]
            have hrt : r ∈ t := by
              rcases List.mem_cons.mp hr with hr | hr
              · subst hr; rw [hm] at hmh; cases hmh rfl
              · exact hr
            rcases hs with _ | ⟨_, hts⟩
            exact ih none r hts hrt hm

theorem tssScanAll_sound {p : FiveTuple} :
    ∀ (tables : TssTables) (best : Option Rule) (s : Rule),
      tssScanAll p tables best = some s →
      best = some s ∨
        ∃ e ∈ tables, ∃ kb ∈ e.2, s ∈ kb.2 ∧ s.matches p = true := by
  intro tables
  induction tables with
  | nil => intro best s h; exact Or.inl h
  | cons e rest ih =>
      intro best s h
      simp only [tssScanAll, List.foldl_cons] at h
      cases hf : assocFind (TupleKey.ofPacket p e.1) e.2 with
      | some bucket =>
          rw [hf] at h
          rcases ih _ s h with h2 | ⟨e₂, he₂, kb, hkb, hskb, hsm⟩
          · rcases scanBucket_sound bucket best s h2 with h3 | ⟨h3, h4⟩
            · exact Or.inl h3
            · exact Or.inr ⟨e, by simp, (TupleKey.ofPacket p e.1, bucket),
                assocFind_mem hf, h3, h4⟩
          · exact Or.inr ⟨e₂, List.mem_cons_of_mem _ he₂, kb, hkb, hskb, hsm⟩
      | none =>
          rw [hf] at h
          rcases ih _ s h with h2 | ⟨e₂, he₂, kb, hkb, hskb, hsm⟩
          · exact Or.inl h2
          · exact Or.inr ⟨e₂, List.mem_cons_of_mem _ he₂, kb, hkb, hskb, hsm⟩

theorem tssScanAll_mono {p : FiveTuple} :
    ∀ (tables : TssTables) (b : Rule),
      ∃ s, tssScanAll p tables (some b) = some s ∧ s.priority ≤ b.priority := by
  intro tables
  induction tables with
  | nil => intro b; exact ⟨b, rfl, le_refl _⟩
  | cons e rest ih =>
      intro b
      simp only [tssScanAll, List.foldl_cons]
      cases hf : assocFind (TupleKey.ofPacket p e.1) e.2 with
      | some bucket =>
          obtain ⟨s₁, hs₁, hp₁⟩ := scanBucket_mono (p := p) bucket b
          obtain ⟨s, hs, hp⟩ := ih s₁
          refine ⟨s, ?_, le_trans hp hp₁⟩
          show tssScanAll p rest (scanBucket p bucket (some b)) = some s
          rw [hs₁]
          exact hs
      | none => exact ih b

theorem tssScanAll_min {p : FiveTuple} :
    ∀ (tables : TssTables) (best : Option Rule) (e : TupleLens × TssTable)
      (bucket : List Rule) (r : Rule),
      e ∈ tables → assocFind (TupleKey.ofPacket p e.1) e.2 = some bucket →
      PrioSorted bucket → r ∈ bucket → r.matches p = true →
      ∃ s, tssScanAll p tables best = some s ∧ s.priority ≤ r.priority := by
  intro tables
  induction tables with
  | nil => intro best e bucket r he; cases he
  | cons e₂ rest ih =>
      intro best e bucket r he hf hsort hr hm
      simp only [tssScanAll, List.foldl_cons]
      rcases List.mem_cons.mp he with he | he
      · subst he
        rw [hf]
        obtain ⟨s₁, hs₁, hp₁⟩ := scanBucket_min (p := p) bucket best r hsort hr hm
        obtain ⟨s, hs, hp⟩ := tssScanAll_mono rest s₁
        refine ⟨s, ?_, le_trans hp hp₁⟩
        show tssScanAll p rest (scanBucket p bucket best) = some s
        rw [hs₁]
        exact hs
      · cases hf₂ : assocFind (TupleKey.ofPacket p e₂.1) e₂.2 with
        | some bucket₂ =>
            exact ih _ e bucket r he hf hsort hr hm
        | none =>
            exact ih _ e bucket r he hf hsort hr hm

end TssScanLemmas

section TssCoverLemmas

theorem range_to_prefixes_cover {bits lo hi x : Nat} (h1 : lo ≤ x) (h2 : x ≤ hi) :
    ∃ c ∈ range_to_prefixes bits lo hi,
      c.value ≤ x ∧ x ≤ c.value + 2 ^ (bits - c.len) - 1 ∧
      2 ^ (bits - c.len) ∣ c.value ∧ c.len ≤ bits := by
  unfold range_to_prefixes
  rw [if_neg (by omega)]
  obtain ⟨hcov, _, _, hal⟩ := rtpGo_spec bits hi (hi + 1 - lo) lo le_rfl (by omega)
  obtain ⟨c, hcm, hcb⟩ := (hcov x).mpr ⟨h1, h2⟩
  exact ⟨c, hcm, hcb.1, hcb.2, (hal c hcm).1, (hal c hcm).2.1⟩

/-- One expanded combination whose five blocks all contain the packet's
fields, together with the alignment facts needed for key equality. -/
def PartCovers (part : TupleLens × Nat × Nat × Nat × Nat × Nat)
    (p : FiveTuple) : Prop :=
  (part.2.1 ≤ p.src_ip ∧ p.src_ip ≤ part.2.1 + 2 ^ (32 - part.1.src_ip_len) - 1 ∧
    2 ^ (32 - part.1.src_ip_len) ∣ part.2.1 ∧ part.1.src_ip_len ≤ 32) ∧
  (part.2.2.1 ≤ p.dst_ip ∧ p.dst_ip ≤ part.2.2.1 + 2 ^ (32 - part.1.dst_ip_len) - 1 ∧
    2 ^ (32 - part.1.dst_ip_len) ∣ part.2.2.1 ∧ part.1.dst_ip_len ≤ 32) ∧
  (part.2.2.2.1 ≤ p.src_port ∧
    p.src_port ≤ part.2.2.2.1 + 2 ^ (16 - part.1.src_port_len) - 1 ∧
    2 ^ (16 - part.1.src_port_len) ∣ part.2.2.2.1 ∧ part.1.src_port_len ≤ 16) ∧
  (part.2.2.2.2.1 ≤ p.dst_port ∧
    p.dst_port ≤ part.2.2.2.2.1 + 2 ^ (16 - part.1.dst_port_len) - 1 ∧
    2 ^ (16 - part.1.dst_port_len) ∣ part.2.2.2.2.1 ∧ part.1.dst_port_len ≤ 16) ∧
  (part.2.2.2.2.2 ≤ p.proto ∧
    p.proto ≤ part.2.2.2.2.2 + 2 ^ (8 - part.1.proto_len) - 1 ∧
    2 ^ (8 - part.1.proto_len) ∣ part.2.2.2.2.2 ∧ part.1.proto_len ≤ 8)

/-- A matching rule always has an expanded combination covering the
packet. -/
theorem expand_rule_cover {r : Rule} {p : FiveTuple} (hm : r.matches p = true) :
    ∃ part ∈ expand_rule r, PartCovers part p := by
  simp only [Rule.matches, Bool.and_eq_true, NRange.contains,
    decide_eq_true_eq] at hm
  obtain ⟨⟨⟨⟨h1, h2⟩, h3⟩, h4⟩, h5⟩ := hm
  obtain ⟨cs, hcs, hcsb⟩ := @range_to_prefixes_cover 32 _ _ _ h1.1 h1.2
  obtain ⟨cd, hcd, hcdb⟩ := @range_to_prefixes_cover 32 _ _ _ h2.1 h2.2
  obtain ⟨csp, hcsp, hcspb⟩ := @range_to_prefixes_cover 16 _ _ _ h3.1 h3.2
  obtain ⟨cdp, hcdp, hcdpb⟩ := @range_to_prefixes_cover 16 _ _ _ h4.1 h4.2
  obtain ⟨cpr, hcpr, hcprb⟩ := @range_to_prefixes_cover 8 _ _ _ h5.1 h5.2
  refine ⟨(⟨cs.len, cd.len, csp.len, cdp.len, cpr.len⟩,
    cs.value, cd.value, csp.value, cdp.value, cpr.value), ?_, ?_⟩
  · unfold expand_rule
    refine List.mem_flatMap.mpr ⟨cs, hcs, ?_⟩
    refine List.mem_flatMap.mpr ⟨cd, hcd, ?_⟩
    refine List.mem_flatMap.mpr ⟨csp, hcsp, ?_⟩
    refine List.mem_flatMap.mpr ⟨cdp, hcdp, ?_⟩
    exact List.mem_map.mpr ⟨cpr, hcpr, rfl⟩
  · exact ⟨⟨hcsb.1, hcsb.2.1, hcsb.2.2.1, hcsb.2.2.2⟩,
      ⟨hcdb.1, hcdb.2.1, hcdb.2.2.1, hcdb.2.2.2⟩,
      ⟨hcspb.1, hcspb.2.1, hcspb.2.2.1, hcspb.2.2.2⟩,
      ⟨hcdpb.1, hcdpb.2.1, hcdpb.2.2.1, hcdpb.2.2.2⟩,
      ⟨hcprb.1, hcprb.2.1, hcprb.2.2.1, hcprb.2.2.2⟩⟩

/-- Masking the raw prefix values with any subset tuple gives exactly the
key the packet probes that tuple's table with. -/
theorem partKey_eq {part : TupleLens × Nat × Nat × Nat × Nat × Nat}
    {p : FiveTuple} (hc : PartCovers part p) {t : TupleLens}
    (hsub : t.is_subset_of part.1 = true) :
    TupleKey.from_values part.2.1 part.2.2.1 part.2.2.2.1 part.2.2.2.2.1
        part.2.2.2.2.2 t = TupleKey.ofPacket p t := by
  simp only [TupleLens.is_subset_of, Bool.and_eq_true, decide_eq_true_eq] at hsub
  obtain ⟨⟨⟨⟨hs1, hs2⟩, hs3⟩, hs4⟩, hs5⟩ := hsub
  obtain ⟨hc1, hc2, hc3, hc4, hc5⟩ := hc
  simp only [TupleKey.ofPacket, TupleKey.from_values, TupleKey.mk.injEq]
  refine ⟨?_, ?_, ?_, ?_, ?_⟩
  · exact (maskBits_eq_of_block hs1 hc1.2.2.2 hc1.2.2.1 hc1.1 hc1.2.1).symm
  · exact (maskBits_eq_of_block hs2 hc2.2.2.2 hc2.2.2.1 hc2.1 hc2.2.1).symm
  · exact (maskBits_eq_of_block hs3 hc3.2.2.2 hc3.2.2.1 hc3.1 hc3.2.1).symm
  · exact (maskBits_eq_of_block hs4 hc4.2.2.2 hc4.2.2.1 hc4.1 hc4.2.1).symm
  · exact (maskBits_eq_of_block hs5 hc5.2.2.2 hc5.2.2.1 hc5.1 hc5.2.1).symm

theorem is_subset_of_self (t : TupleLens) : t.is_subset_of t = true := by
  simp [TupleLens.is_subset_of]

theorem findBestTuple_subset {tables : TssTables} {rt t : TupleLens}
    (h : findBestTuple tables rt = some t) : t.is_subset_of rt = true := by
  unfold findBestTuple at h
  rw [Option.map_eq_some'] at h
  obtain ⟨x, hx, hxt⟩ := h
  subst hxt
  revert hx
  refine foldl_invariant
    (fun (best : Option (TupleLens × Nat)) =>
      best = some x → x.1.is_subset_of rt = true)
    _ tables none ?_ ?_
  · intro h; cases h
  · intro best e _ hbest
    by_cases hsub : e.1.is_subset_of rt
    · simp only [hsub, if_true]
      cases best with
      | none =>
          by_cases hd : e.1.bit_difference rt ≤ 12
          · simp only [hd, if_true]
            intro h
            injection h with h
            rw [← h]
            exact hsub
          · simp only [hd, if_false]
            intro h; cases h
      | some bd =>
          obtain ⟨bt, bdn⟩ := bd
          by_cases hd : e.1.bit_difference rt < bdn ∧ e.1.bit_difference rt ≤ 12
          · simp only [hd, if_true]
            intro h
            injection h with h
            rw [← h]
            exact hsub
          · simp only [hd, if_false]
            exact hbest
    · simp only [hsub, Bool.false_eq_true, if_false]
      exact hbest

/-- The freshly inserted combination is findable by the packet that the
combination covers: the entry at the target tuple, probed with the packet's
key, yields a bucket holding the rule. -/
theorem tssInsertPart_self (tables : TssTables) (rule : Rule)
    (part : TupleLens × Nat × Nat × Nat × Nat × Nat) (p : FiveTuple)
    (hcov : PartCovers part p) :
    ∃ e ∈ tssInsertPart tables rule part, ∃ b,
      assocFind (TupleKey.ofPacket p e.1) e.2 = some b ∧ rule ∈ b := by
  obtain ⟨rt, sip, dip, sp, dp, pr⟩ := part
  simp only [tssInsertPart]
  set target := (findBestTuple tables rt).getD rt with htarget
  have hsub : target.is_subset_of rt = true := by
    rw [htarget]
    cases hft : findBestTuple tables rt with
    | none => simp [is_subset_of_self]
    | some t => simp [findBestTuple_subset hft]
  have hkey : TupleKey.from_values sip dip sp dp pr target =
      TupleKey.ofPacket p target := partKey_eq hcov hsub
  refine ⟨(target,
    assocUpdate (TupleKey.from_values sip dip sp dp pr target)
      (fun bucket => sortByPriority (bucket ++ [rule])) []
      ((assocFind target tables).getD [])), ?_, ?_⟩
  · exact assocUpdate_self_mem target _ [] tables
  · refine ⟨sortByPriority
      (((assocFind (TupleKey.from_values sip dip sp dp pr target)
          ((assocFind target tables).getD [])).getD []) ++ [rule]), ?_, ?_⟩
    · show assocFind (TupleKey.ofPacket p target) _ = _
      rw [← hkey, assocFind_assocUpdate_self]
    · rw [mem_sortByPriority]
      simp

/-- Any further insertion keeps every already findable rule findable. -/
theorem tssInsertPart_preserves {tables : TssTables} {rule₂ : Rule}
    {part : TupleLens × Nat × Nat × Nat × Nat × Nat} {p : FiveTuple} {r : Rule}
    (h : ∃ e ∈ tables, ∃ b,
      assocFind (TupleKey.ofPacket p e.1) e.2 = some b ∧ r ∈ b) :
    ∃ e ∈ tssInsertPart tables rule₂ part, ∃ b,
      assocFind (TupleKey.ofPacket p e.1) e.2 = some b ∧ r ∈ b := by
  obtain ⟨rt, sip, dip, sp, dp, pr⟩ := part
  obtain ⟨e, he, b, hfb, hrb⟩ := h
  simp only [tssInsertPart]
  set target := (findBestTuple tables rt).getD rt with htarget
  set key := TupleKey.from_values sip dip sp dp pr target with hkeydef
  rcases assocUpdate_entry_cases (k := target)
      (f := fun table => assocUpdate key
        (fun bucket => sortByPriority (bucket ++ [rule₂])) [] table)
      (d := []) he with h1 | ⟨hek, h2⟩
  · exact ⟨e, h1, b, hfb, hrb⟩
  · refine ⟨(e.1, assocUpdate key
      (fun bucket => sortByPriority (bucket ++ [rule₂])) [] e.2), h2, ?_⟩
    by_cases hk : TupleKey.ofPacket p e.1 = key
    · rw [← hk, assocFind_assocUpdate_self]
      refine ⟨_, rfl, ?_⟩
      rw [hk, ← hk, hfb]
      rw [mem_sortByPriority]
      simp only [Option.getD_some, List.mem_append]
      exact Or.inl hrb
    · rw [assocFind_assocUpdate_ne _ _ _ hk]
      exact ⟨b, hfb, hrb⟩

/-- Coverage of the whole build: every input rule matching a packet sits in
a bucket the packet's probes reach. -/
theorem TSSbuild_cover {rules : List Rule} {r : Rule} {p : FiveTuple}
    (hr : r ∈ rules) (hm : r.matches p = true) :
    ∃ e ∈ TSSbuild rules, ∃ b,
      assocFind (TupleKey.ofPacket p e.1) e.2 = some b ∧ r ∈ b := by
  obtain ⟨l1, l2, hsplit⟩ := List.append_of_mem hr
  subst hsplit
  unfold TSSbuild
  rw [List.foldl_append, List.foldl_cons]
  refine foldl_invariant
    (fun (tables : TssTables) => ∃ e ∈ tables, ∃ b,
      assocFind (TupleKey.ofPacket p e.1) e.2 = some b ∧ r ∈ b)
    _ l2 _ ?_ ?_
  · obtain ⟨part0, hp0mem, hp0cov⟩ := expand_rule_cover hm
    obtain ⟨q1, q2, hq⟩ := List.append_of_mem hp0mem
    rw [hq, List.foldl_append, List.foldl_cons]
    refine foldl_invariant
      (fun (tables : TssTables) => ∃ e ∈ tables, ∃ b,
        assocFind (TupleKey.ofPacket p e.1) e.2 = some b ∧ r ∈ b)
      _ q2 _ ?_ ?_
    · exact tssInsertPart_self _ r part0 p hp0cov
    · intro tables part _ hinv
      exact tssInsertPart_preserves hinv
  · intro tables r₂ _ hinv
    refine foldl_invariant
      (fun (tables : TssTables) => ∃ e ∈ tables, ∃ b,
        assocFind (TupleKey.ofPacket p e.1) e.2 = some b ∧ r ∈ b)
      _ (expand_rule r₂) _ ?_ ?_
    · exact hinv
    · intro tables part _ hinv₂
      exact tssInsertPart_preserves hinv₂

end TssCoverLemmas

section TssMainLemmas

/-- TSS characterisation: a some result names a minimal-priority matching
rule, and a none result means nothing matches. -/
theorem tss_minMatch (rules : List Rule) (p : FiveTuple) :
    (∀ a, (TSSClassifier.build rules).classify p = some a →
       ∃ s, IsMinMatch rules p s ∧ s.action = a) ∧
    ((TSSClassifier.build rules).classify p = none ↔
       ∀ r ∈ rules, ¬ r.matches p = true) := by
  constructor
  · intro a ha
    simp only [TSSClassifier.classify, TSSClassifier.build,
      Option.map_eq_some'] at ha
    obtain ⟨s, hs, hact⟩ := ha
    rcases tssScanAll_sound (TSSbuild rules) none s hs with h | ⟨e, he, kb, hkb, hskb, hsm⟩
    · cases h
    · have hsrules : s ∈ rules := (TSSbuild_invariant rules e he kb hkb).2 s hskb
      refine ⟨s, ⟨hsrules, hsm, ?_⟩, hact⟩
      intro r' hr' hm'
      obtain ⟨e', he', b', hfb', hrb'⟩ := TSSbuild_cover hr' hm'
      have hsorted : PrioSorted b' :=
        (TSSbuild_invariant rules e' he' _ (assocFind_mem hfb')).1
      obtain ⟨s', hs', hp'⟩ :=
        tssScanAll_min (TSSbuild rules) none e' b' r' he' hfb' hsorted hrb' hm'
      rw [hs] at hs'
      injection hs' with hs'
      rw [hs']
      exact hp'
  · constructor
    · intro hn r hr hm
      obtain ⟨e', he', b', hfb', hrb'⟩ := TSSbuild_cover hr hm
      have hsorted : PrioSorted b' :=
        (TSSbuild_invariant rules e' he' _ (assocFind_mem hfb')).1
      obtain ⟨s', hs', _⟩ :=
        tssScanAll_min (TSSbuild rules) none e' b' r he' hfb' hsorted hrb' hm
      simp only [TSSClassifier.classify, TSSClassifier.build,
        Option.map_eq_none'] at hn
      rw [hn] at hs'
      cases hs'
    · intro hall
      simp only [TSSClassifier.classify, TSSClassifier.build,
        Option.map_eq_none']
      cases hsc : tssScanAll p (TSSbuild rules) none with
      | none => rfl
      | some s =>
          rcases tssScanAll_sound (TSSbuild rules) none s hsc with h | ⟨e, he, kb, hkb, hskb, hsm⟩
          · cases h
          · have hsrules : s ∈ rules :=
              (TSSbuild_invariant rules e he kb hkb).2 s hskb
            exact absurd hsm (hall s hsrules)

/-- With pairwise-distinct priorities TSS agrees with the linear oracle on
every packet. -/
theorem tss_eq_linear {rules : List Rule} {p : FiveTuple}
    (hD : DistinctPrio rules) :
    (TSSClassifier.build rules).classify p =
      (LinearClassifier.build rules).classify p := by
  obtain ⟨htsome, htnone⟩ := tss_minMatch rules p
  obtain ⟨hlsome, hlnone⟩ := @linear_minMatch rules p
  cases hl : (LinearClassifier.build rules).classify p with
  | none =>
      rw [hlnone] at hl
      exact htnone.mpr hl
  | some a =>
      obtain ⟨rL, hLmin, hLact⟩ := hlsome a hl
      cases ht : (TSSClassifier.build rules).classify p with
      | none =>
          exact absurd hLmin.2.1 (htnone.mp ht rL hLmin.1)
      | some a₂ =>
          obtain ⟨rT, hTmin, hTact⟩ := htsome a₂ ht
          have : rT = rL := minMatch_unique hD hTmin hLmin
          rw [← hTact, this, hLact]

end TssMainLemmas

/-- Source src/partitionsort/tree.rs: struct Node { center, left, right,
rules }; the nil constructor is the absent Option child. -/
inductive PTree where
  | nil : PTree
  | node (center : Nat) (rules : List Rule) (left right : PTree) : PTree
deriving Repr

/-- Source src/partitionsort/tree.rs: get_range by integer field index
0..4 (ports and proto widened to u32).  The source panics on any other
index; that arm is unreachable (the classifier only passes 0..4) and is
embedded as the empty range [1,0]. -/
def psRange (r : Rule) (f : Nat) : NRange :=
  match f with
  | 0 => r.src_ip
  | 1 => r.dst_ip
  | 2 => r.src_port
  | 3 => r.dst_port
  | 4 => r.proto
  | _ => ⟨1, 0⟩

/-- Endpoint multiset (min and max of every rule) sorted — the center
computation of build_recursive. -/
def psEndpoints (rules : List Rule) (f : Nat) : List Nat :=
  sortNat (rules.flatMap (fun r => [(psRange r f).min, (psRange r f).max]))

/-- center = endpoints[endpoints.len() / 2] (the list is non-empty whenever
rules is). -/
def psCenter (rules : List Rule) (f : Nat) : Nat :=
  (psEndpoints rules f).getD ((psEndpoints rules f).length / 2) 0

/-- The if / else-if / else partition of build_recursive: rules entirely
below the center. -/
def psLeftR (rules : List Rule) (f : Nat) (c : Nat) : List Rule :=
  rules.filter (fun r => decide ((psRange r f).max < c))

/-- Rules entirely above the center (tested only after the left test
failed, as in the source's else-if). -/
def psRightR (rules : List Rule) (f : Nat) (c : Nat) : List Rule :=
  rules.filter (fun r =>
    !(decide ((psRange r f).max < c)) && decide (c < (psRange r f).min))

/-- Rules overlapping the center (the final else). -/
def psCenterR (rules : List Rule) (f : Nat) (c : Nat) : List Rule :=
  rules.filter (fun r =>
    !(decide ((psRange r f).max < c)) && !(decide (c < (psRange r f).min)))

/-- Source src/partitionsort/tree.rs: build_recursive.  The Rust recursion
has no depth bound and genuinely fails to terminate on some inputs with
inverted ranges (proved below), so the embedding carries explicit fuel;
none marks a recursion deeper than the fuel. -/
def psBuildGo (f : Nat) : Nat → List Rule → Option PTree
  | 0, _ => none
  | fuel + 1, rules =>
      if rules.isEmpty then some (PTree.node 0 [] PTree.nil PTree.nil)
      else
        match (if (psLeftR rules f (psCenter rules f)).isEmpty then some PTree.nil
               else psBuildGo f fuel (psLeftR rules f (psCenter rules f))),
              (if (psRightR rules f (psCenter rules f)).isEmpty then some PTree.nil
               else psBuildGo f fuel (psRightR rules f (psCenter rules f))) with
        | some lt, some rt =>
            some (PTree.node (psCenter rules f)
              (psCenterR rules f (psCenter rules f)) lt rt)
        | _, _ => none

/-- One step of the node-list scan of query_recursive_packet: on a full
match take the rule when it strictly improves the best. -/
def psScanStep (p : FiveTuple) (best : Option Rule) (r : Rule) : Option Rule :=
  if r.matches p then
    match best with
    | none => some r
    | some b => if r.priority < b.priority then some r else some b
  else best

/-- Source src/partitionsort/tree.rs: the node-list scan of
query_recursive_packet — track the best full match, strict improvement
only. -/
def psNodeScan (p : FiveTuple) (rules : List Rule) : Option Rule :=
  rules.foldl (psScanStep p) none

/-- Source src/partitionsort/tree.rs: the final merge of the node's best
with the child's best. -/
def psCombine : Option Rule → Option Rule → Option Rule
  | some b, some c => if b.priority < c.priority then some b else some c
  | some b, none => some b
  | none, some c => some c
  | none, none => none

/-- Source src/partitionsort/tree.rs: query_recursive_packet — scan the
node, descend into left for val < center, right for val > center, nowhere
for equality. -/
def psQuery (p : FiveTuple) (val : Nat) : PTree → Option Rule
  | .nil => none
  | .node c rs l r =>
      psCombine (psNodeScan p rs)
        (if val < c then psQuery p val l
         else if c < val then psQuery p val r
         else none)

/-- Source src/partitionsort/classifier.rs: the packet field for a tree's
field index (the source returns 0 for an invalid index). -/
def psFieldVal (p : FiveTuple) (f : Nat) : Nat :=
  match f with
  | 0 => p.src_ip
  | 1 => p.dst_ip
  | 2 => p.src_port
  | 3 => p.dst_port
  | 4 => p.proto
  | _ => 0

/-- Source src/partitionsort/classifier.rs: max_bucket_recursive /
get_max_bucket. -/
def PTree.maxBucket : PTree → Nat
  | .nil => 0
  | .node _ rs l r => max rs.length (max l.maxBucket r.maxBucket)

/-- Source src/partitionsort/classifier.rs: evaluate_dimension — build the
tree for the dimension and take its maximal node list length. -/
def evaluate_dimension (fuel : Nat) (rules : List Rule) (dim : Nat) :
    Option Nat :=
  (psBuildGo dim fuel rules).map PTree.maxBucket

/-- Source src/partitionsort/classifier.rs: PartitionSortClassifier —
trees with their field indices. -/
structure PartitionSortClassifier where
  trees : List (PTree × Nat)

/-- Source src/partitionsort/classifier.rs: build — empty input short
circuits; otherwise score all five dimensions (strict improvement from the
usize::MAX start is a fold from dimension 0's score) and build the single
best tree.  A none anywhere records that the Rust recursion would not have
returned. -/
def PartitionSortClassifier.build (fuel : Nat) (rules : List Rule) :
    Option PartitionSortClassifier :=
  if rules.isEmpty then some ⟨[]⟩
  else do
    let s0 ← evaluate_dimension fuel rules 0
    let s1 ← evaluate_dimension fuel rules 1
    let s2 ← evaluate_dimension fuel rules 2
    let s3 ← evaluate_dimension fuel rules 3
    let s4 ← evaluate_dimension fuel rules 4
    let best := [(1, s1), (2, s2), (3, s3), (4, s4)].foldl
      (fun b x => if x.2 < b.2 then x else b) (0, s0)
    let tree ← psBuildGo best.1 fuel rules
    some ⟨[(tree, best.1)]⟩

/-- Source src/partitionsort/classifier.rs: classify — query every tree at
the packet's value in that tree's dimension and keep the best priority. -/
def PartitionSortClassifier.classify (c : PartitionSortClassifier)
    (p : FiveTuple) : Option Action :=
  (c.trees.foldl
    (fun best tr =>
      match psQuery p (psFieldVal p tr.2) tr.1 with
      | some rule =>
          match best with
          | none => some rule
          | some b => if rule.priority < b.priority then some rule else some b
      | none => best)
    none).map Rule.action

section PartitionSortLemmas

theorem insertNat_perm (v : Nat) (l : List Nat) :
    (insertNat v l).Perm (v :: l) := by
  induction l with
  | nil => simp [insertNat]
  | cons x xs ih =>
      by_cases h : x ≤ v
      · simp only [insertNat, if_pos h]
        exact (ih.cons x).trans (List.Perm.swap v x xs)
      · simp [insertNat, if_neg h]

theorem sortNat_perm (l : List Nat) : (sortNat l).Perm l := by
  induction l with
  | nil => simp [sortNat]
  | cons x xs ih =>
      exact (insertNat_perm x (sortNat xs)).trans (ih.cons x)

/-- The chosen center is an endpoint of one of the node's rules. -/
theorem psCenter_endpoint {rules : List Rule} {f : Nat} (h : rules ≠ []) :
    ∃ r0 ∈ rules, psCenter rules f = (psRange r0 f).min ∨
      psCenter rules f = (psRange r0 f).max := by
  have hlen : (psEndpoints rules f).length =
      (rules.flatMap (fun r => [(psRange r f).min, (psRange r f).max])).length :=
    (sortNat_perm _).length_eq
  have hpos : 0 < (psEndpoints rules f).length := by
    rw [hlen]
    cases rules with
    | nil => exact absurd rfl h
    | cons r rest => simp [List.length_flatMap]
  have hidx : (psEndpoints rules f).length / 2 < (psEndpoints rules f).length := by
    omega
  have hmem : psCenter rules f ∈ psEndpoints rules f := by
    unfold psCenter
    rw [List.getD_eq_getElem _ _ hidx]
    exact List.getElem_mem hidx
  have hmem2 : psCenter rules f ∈
      rules.flatMap (fun r => [(psRange r f).min, (psRange r f).max]) :=
    (sortNat_perm _).mem_iff.mp hmem
  obtain ⟨r0, hr0, hin⟩ := List.mem_flatMap.mp hmem2
  rcases List.mem_cons.mp hin with hin | hin
  · exact ⟨r0, hr0, Or.inl hin⟩
  · simp only [List.mem_singleton] at hin
    exact ⟨r0, hr0, Or.inr hin⟩

theorem matches_psRange {r : Rule} {p : FiveTuple} (hm : r.matches p = true)
    {f : Nat} (hf : f < 5) :
    (psRange r f).min ≤ psFieldVal p f ∧ psFieldVal p f ≤ (psRange r f).max := by
  simp only [Rule.matches, Bool.and_eq_true, NRange.contains,
    decide_eq_true_eq] at hm
  obtain ⟨⟨⟨⟨h1, h2⟩, h3⟩, h4⟩, h5⟩ := hm
  have : f = 0 ∨ f = 1 ∨ f = 2 ∨ f = 3 ∨ f = 4 := by omega
  rcases this with hf | hf | hf | hf | hf <;> subst hf <;>
    simp_all [psRange, psFieldVal]

theorem psScan_sound {p : FiveTuple} :
    ∀ (l : List Rule) (init : Option Rule) (s : Rule),
      l.foldl (psScanStep p) init = some s →
      init = some s ∨ (s ∈ l ∧ s.matches p = true) := by
  intro l
  induction l with
  | nil => intro init s h; exact Or.inl h
  | cons r rest ih =>
      intro init s h
      rw [List.foldl_cons] at h
      rcases ih _ s h with h2 | ⟨h3, h4⟩
      · by_cases hm : r.matches p
        · cases init with
          | none =>
              simp only [psScanStep, if_pos hm] at h2
              injection h2 with h2
              subst h2
              exact Or.inr ⟨by simp, hm⟩
          | some b =>
              simp only [psScanStep, if_pos hm] at h2
              by_cases hlt : r.priority < b.priority
              · rw [if_pos hlt] at h2
                injection h2 with h2
                subst h2
                exact Or.inr ⟨by simp, hm⟩
              · rw [if_neg hlt] at h2
                exact Or.inl h2
        · simp only [psScanStep, if_neg hm] at h2
          exact Or.inl h2
      · exact Or.inr ⟨List.mem_cons_of_mem _ h3, h4⟩

theorem psScan_mono {p : FiveTuple} :
    ∀ (l : List Rule) (b : Rule),
      ∃ s, l.foldl (psScanStep p) (some b) = some s ∧
        s.priority ≤ b.priority := by
  intro l
  induction l with
  | nil => intro b; exact ⟨b, rfl, le_refl _⟩
  | cons r rest ih =>
      intro b
      rw [List.foldl_cons]
      simp only [psScanStep]
      by_cases hm : r.matches p
      · rw [if_pos hm]
        by_cases hlt : r.priority < b.priority
        · rw [if_pos hlt]
          obtain ⟨s, hs, hp⟩ := ih r
          exact ⟨s, hs, le_trans hp (le_of_lt hlt)⟩
        · rw [if_neg hlt]
          exact ih b
      · rw [if_neg hm]
        exact ih b

theorem psScan_min {p : FiveTuple} :
    ∀ (l : List Rule) (init : Option Rule) (r : Rule),
      r ∈ l → r.matches p = true →
      ∃ s, l.foldl (psScanStep p) init = some s ∧ s.priority ≤ r.priority := by
  intro l
  induction l with
  | nil => intro init r hr; cases hr
  | cons h t ih =>
      intro init r hr hm
      rw [List.foldl_cons]
      rcases List.mem_cons.mp hr with hr | hr
      · subst hr
        cases init with
        | none =>
            simp only [psScanStep, if_pos hm]
            exact psScan_mono t r
        | some b =>
            simp only [psScanStep, if_pos hm]
            by_cases hlt : r.priority < b.priority
            · rw [if_pos hlt]
              exact psScan_mono t r
            · rw [if_neg hlt]
              obtain ⟨s, hs, hp⟩ := psScan_mono t b
              exact ⟨s, hs, by omega⟩
      · exact ih _ r hr hm

theorem psCombine_le_left {a : Rule} (c : Option Rule) :
    ∃ s, psCombine (some a) c = some s ∧ s.priority ≤ a.priority := by
  cases c with
  | none => exact ⟨a, rfl, le_refl _⟩
  | some c =>
      simp only [psCombine]
      by_cases h : a.priority < c.priority
      · rw [if_pos h]; exact ⟨a, rfl, le_refl _⟩
      · rw [if_neg h]; exact ⟨c, rfl, by omega⟩

theorem psCombine_le_right (b : Option Rule) {c : Rule} :
    ∃ s, psCombine b (some c) = some s ∧ s.priority ≤ c.priority := by
  cases b with
  | none => exact ⟨c, rfl, le_refl _⟩
  | some b =>
      simp only [psCombine]
      by_cases h : b.priority < c.priority
      · rw [if_pos h]; exact ⟨b, rfl, le_of_lt h⟩
      · rw [if_neg h]; exact ⟨c, rfl, le_refl _⟩

theorem psCombine_sound {b c : Option Rule} {s : Rule}
    (h : psCombine b c = some s) : b = some s ∨ c = some s := by
  cases b with
  | none =>
      cases c with
      | none => cases h
      | some c => exact Or.inr h
  | some b =>
      cases c with
      | none => exact Or.inl h
      | some c =>
          simp only [psCombine] at h
          by_cases hp : b.priority < c.priority
          · rw [if_pos hp] at h; exact Or.inl h
          · rw [if_neg hp] at h; exact Or.inr h

end PartitionSortLemmas

section PartitionSortMain

theorem option_match_pair {α β γ : Type} {a : Option α} {b : Option β}
    {g : α → β → γ} {t : γ}
    (h : (match a, b with
          | some x, some y => some (g x y)
          | _, _ => none) = some t) :
    ∃ x y, a = some x ∧ b = some y ∧ t = g x y := by
  cases a <;> cases b <;> simp_all

theorem length_filter_lt {α : Type} (q : α → Bool) {l : List α} {x : α}
    (hx : x ∈ l) (hq : q x = false) : (l.filter q).length < l.length := by
  induction l with
  | nil => cases hx
  | cons y ys ih =>
      rcases List.mem_cons.mp hx with hx | hx
      · subst hx
        have hle := List.length_filter_le q ys
        simp [List.filter_cons, hq]
        omega
      · have := ih hx
        cases hqy : q y <;> simp [List.filter_cons, hqy] <;> omega

/-- Partial correctness of the interval tree: whenever the build recursion
returns within its fuel, querying the tree at the packet's value in the
tree's dimension is sound and finds a priority at or below every matching
rule's. -/
theorem psBuildGo_query_spec (f : Nat) (hf : f < 5) :
    ∀ (fuel : Nat) (rules : List Rule) (tree : PTree) (p : FiveTuple),
      psBuildGo f fuel rules = some tree →
      (∀ s, psQuery p (psFieldVal p f) tree = some s →
        s ∈ rules ∧ s.matches p = true) ∧
      (∀ r ∈ rules, r.matches p = true →
        ∃ s, psQuery p (psFieldVal p f) tree = some s ∧
          s.priority ≤ r.priority) := by
  intro fuel
  induction fuel with
  | zero => intro rules tree p h; cases h
  | succ fuel ih =>
      intro rules tree p h
      rw [psBuildGo] at h
      by_cases hemp : rules.isEmpty
      · rw [if_pos hemp] at h
        injection h with h
        subst h
        have hrules : rules = [] := List.isEmpty_iff.mp hemp
        subst hrules
        constructor
        · intro s hs
          simp only [psQuery, psNodeScan, List.foldl_nil] at hs
          by_cases h0 : psFieldVal p f < 0
          · omega
          · rw [if_neg h0] at hs
            by_cases h1 : 0 < psFieldVal p f
            · rw [if_pos h1] at hs
              simp [psQuery, psCombine] at hs
            · rw [if_neg h1] at hs
              simp [psCombine] at hs
        · intro r hr; cases hr
      · rw [if_neg hemp] at h
        cases hlt : (if (psLeftR rules f (psCenter rules f)).isEmpty then some PTree.nil
            else psBuildGo f fuel (psLeftR rules f (psCenter rules f))) with
        | none => rw [hlt] at h; cases h
        | some lt =>
        cases hrt : (if (psRightR rules f (psCenter rules f)).isEmpty then some PTree.nil
            else psBuildGo f fuel (psRightR rules f (psCenter rules f))) with
        | none => rw [hlt, hrt] at h; cases h
        | some rt =>
        rw [hlt, hrt] at h
        injection h with h
        subst h
        set c := psCenter rules f with hcdef
        set v := psFieldVal p f with hvdef
        have hLsound : ∀ s, psQuery p v lt = some s →
            s ∈ psLeftR rules f c ∧ s.matches p = true := by
          by_cases hle : (psLeftR rules f c).isEmpty
          · rw [if_pos hle] at hlt
            injection hlt with hlt
            subst hlt
            intro s hs
            simp [psQuery] at hs
          · rw [if_neg hle] at hlt
            exact (ih _ lt p hlt).1
        have hRsound : ∀ s, psQuery p v rt = some s →
            s ∈ psRightR rules f c ∧ s.matches p = true := by
          by_cases hre : (psRightR rules f c).isEmpty
          · rw [if_pos hre] at hrt
            injection hrt with hrt
            subst hrt
            intro s hs
            simp [psQuery] at hs
          · rw [if_neg hre] at hrt
            exact (ih _ rt p hrt).1
        constructor
        · intro s hs
          simp only [psQuery] at hs
          rcases psCombine_sound hs with h1 | h2
          · obtain h3 := psScan_sound _ none s h1
            rcases h3 with h3 | ⟨h3, h4⟩
            · cases h3
            · exact ⟨(List.mem_filter.mp h3).1, h4⟩
          · by_cases hv1 : v < c
            · rw [if_pos hv1] at h2
              obtain ⟨h3, h4⟩ := hLsound s h2
              exact ⟨(List.mem_filter.mp h3).1, h4⟩
            · rw [if_neg hv1] at h2
              by_cases hv2 : c < v
              · rw [if_pos hv2] at h2
                obtain ⟨h3, h4⟩ := hRsound s h2
                exact ⟨(List.mem_filter.mp h3).1, h4⟩
              · rw [if_neg hv2] at h2
                cases h2
        · intro r hr hm
          have hrv := matches_psRange hm hf
          rw [← hvdef] at hrv
          simp only [psQuery]
          by_cases hL : (psRange r f).max < c
          · -- r went to the left subtree and the query descends there
            have hrmem : r ∈ psLeftR rules f c :=
              List.mem_filter.mpr ⟨hr, by simp [hL]⟩
            have hle : ¬ (psLeftR rules f c).isEmpty := by
              intro hcon
              rw [List.isEmpty_iff] at hcon
              rw [hcon] at hrmem
              cases hrmem
            rw [if_neg hle] at hlt
            have hvc : v < c := by omega
            obtain ⟨s, hs, hp⟩ := (ih _ lt p hlt).2 r hrmem hm
            rw [if_pos hvc]
            obtain ⟨s₂, hs₂, hp₂⟩ :=
              psCombine_le_right (psNodeScan p (psCenterR rules f c)) (c := s)
            rw [← hs] at hs₂
            exact ⟨s₂, hs₂, le_trans hp₂ hp⟩
          · by_cases hR : c < (psRange r f).min
            · have hrmem : r ∈ psRightR rules f c :=
                List.mem_filter.mpr ⟨hr, by simp [hL, hR]⟩
              have hre : ¬ (psRightR rules f c).isEmpty := by
                intro hcon
                rw [List.isEmpty_iff] at hcon
                rw [hcon] at hrmem
                cases hrmem
              rw [if_neg hre] at hrt
              have hvc : ¬ v < c := by omega
              have hvc2 : c < v := by omega
              obtain ⟨s, hs, hp⟩ := (ih _ rt p hrt).2 r hrmem hm
              rw [if_neg hvc, if_pos hvc2]
              obtain ⟨s₂, hs₂, hp₂⟩ :=
                psCombine_le_right (psNodeScan p (psCenterR rules f c)) (c := s)
              rw [← hs] at hs₂
              exact ⟨s₂, hs₂, le_trans hp₂ hp⟩
            · have hrmem : r ∈ psCenterR rules f c :=
                List.mem_filter.mpr ⟨hr, by simp [hL, hR]⟩
              obtain ⟨s, hs, hp⟩ := psScan_min (psCenterR rules f c) none r hrmem hm
              have hs' : psNodeScan p (psCenterR rules f c) = some s := hs
              rw [hs']
              obtain ⟨s₂, hs₂, hp₂⟩ := psCombine_le_left (a := s)
                (if v < c then psQuery p v lt
                 else if c < v then psQuery p v rt else none)
              exact ⟨s₂, hs₂, le_trans hp₂ hp⟩

/-- The interval-tree build returns within fuel |rules| + 1 whenever every
rule's range in the chosen dimension is non-inverted: the rule contributing
the median endpoint stays at the node, so both children are strictly
smaller. -/
theorem psBuildGo_terminates (f : Nat) :
    ∀ (fuel : Nat) (rules : List Rule),
      (∀ r ∈ rules, (psRange r f).min ≤ (psRange r f).max) →
      rules.length < fuel →
      ∃ t, psBuildGo f fuel rules = some t := by
  intro fuel
  induction fuel with
  | zero => intro rules _ h; omega
  | succ fuel ih =>
      intro rules hvalid hlen
      by_cases hemp : rules.isEmpty
      · exact ⟨_, by rw [psBuildGo, if_pos hemp]⟩
      · have hne : rules ≠ [] := by
          intro hcon; rw [hcon] at hemp; simp at hemp
        obtain ⟨r0, hr0, hc⟩ := psCenter_endpoint (f := f) hne
        have hv0 := hvalid r0 hr0
        set c := psCenter rules f with hcdef
        have hnotl : (fun r => decide ((psRange r f).max < c)) r0 = false := by
          simp only [decide_eq_false_iff_not, not_lt]
          rcases hc with hc | hc <;> omega
        have hnotr : (fun r => !(decide ((psRange r f).max < c)) &&
            decide (c < (psRange r f).min)) r0 = false := by
          simp only [Bool.and_eq_false_iff, decide_eq_false_iff_not, not_lt,
            Bool.not_eq_false, decide_eq_true_eq]
          rcases hc with hc | hc
          · right; omega
          · right; omega
        have hllen : (psLeftR rules f c).length < rules.length :=
          length_filter_lt _ hr0 hnotl
        have hrlen : (psRightR rules f c).length < rules.length :=
          length_filter_lt _ hr0 hnotr
        have hlres : ∃ lt, (if (psLeftR rules f c).isEmpty then some PTree.nil
            else psBuildGo f fuel (psLeftR rules f c)) = some lt := by
          by_cases hle : (psLeftR rules f c).isEmpty
          · exact ⟨PTree.nil, by rw [if_pos hle]⟩
          · obtain ⟨t, ht⟩ := ih (psLeftR rules f c)
              (fun r hr => hvalid r (List.mem_filter.mp hr).1) (by omega)
            exact ⟨t, by rw [if_neg hle]; exact ht⟩
        have hrres : ∃ rt, (if (psRightR rules f c).isEmpty then some PTree.nil
            else psBuildGo f fuel (psRightR rules f c)) = some rt := by
          by_cases hre : (psRightR rules f c).isEmpty
          · exact ⟨PTree.nil, by rw [if_pos hre]⟩
          · obtain ⟨t, ht⟩ := ih (psRightR rules f c)
              (fun r hr => hvalid r (List.mem_filter.mp hr).1) (by omega)
            exact ⟨t, by rw [if_neg hre]; exact ht⟩
        obtain ⟨lt, hlt⟩ := hlres
        obtain ⟨rt, hrt⟩ := hrres
        refine ⟨PTree.node c (psCenterR rules f c) lt rt, ?_⟩
        rw [psBuildGo, if_neg hemp]
        rw [← hcdef, hlt, hrt]

/-- A rule with no inverted range in any dimension. -/
def Rule.validRanges (r : Rule) : Prop :=
  r.src_ip.min ≤ r.src_ip.max ∧ r.dst_ip.min ≤ r.dst_ip.max ∧
    r.src_port.min ≤ r.src_port.max ∧ r.dst_port.min ≤ r.dst_port.max ∧
    r.proto.min ≤ r.proto.max

instance (r : Rule) : Decidable r.validRanges := by
  unfold Rule.validRanges; infer_instance

theorem validRanges_psRange {r : Rule} (h : r.validRanges) {f : Nat}
    (hf : f < 5) : (psRange r f).min ≤ (psRange r f).max := by
  obtain ⟨h0, h1, h2, h3, h4⟩ := h
  have : f = 0 ∨ f = 1 ∨ f = 2 ∨ f = 3 ∨ f = 4 := by omega
  rcases this with hf | hf | hf | hf | hf <;> subst hf <;> simpa [psRange]

/-- Structure of a successful classifier build: the empty shortcut or a
single interval tree on a dimension below five. -/
theorem psBuild_some {fuel : Nat} {rules : List Rule}
    {c : PartitionSortClassifier}
    (h : PartitionSortClassifier.build fuel rules = some c) :
    (rules = [] ∧ c = ⟨[]⟩) ∨
      ∃ tree d, d < 5 ∧ psBuildGo d fuel rules = some tree ∧
        c = ⟨[(tree, d)]⟩ := by
  unfold PartitionSortClassifier.build at h
  by_cases hemp : rules.isEmpty
  · rw [if_pos hemp] at h
    injection h with h
    exact Or.inl ⟨List.isEmpty_iff.mp hemp, h.symm⟩
  · rw [if_neg hemp] at h
    cases he0 : evaluate_dimension fuel rules 0 with
    | none => rw [he0] at h; cases h
    | some s0 =>
    rw [he0] at h
    cases he1 : evaluate_dimension fuel rules 1 with
    | none => rw [he1] at h; cases h
    | some s1 =>
    rw [he1] at h
    cases he2 : evaluate_dimension fuel rules 2 with
    | none => rw [he2] at h; cases h
    | some s2 =>
    rw [he2] at h
    cases he3 : evaluate_dimension fuel rules 3 with
    | none => rw [he3] at h; cases h
    | some s3 =>
    rw [he3] at h
    cases he4 : evaluate_dimension fuel rules 4 with
    | none => rw [he4] at h; cases h
    | some s4 =>
    rw [he4] at h
    simp only [Option.bind_eq_bind, Option.some_bind] at h
    set best := [(1, s1), (2, s2), (3, s3), (4, s4)].foldl
      (fun b x => if x.2 < b.2 then x else b) (0, s0) with hbest
    have hb5 : best.1 < 5 := by
      rw [hbest]
      refine foldl_invariant (fun (b : Nat × Nat) => b.1 < 5) _ _ _ (by omega) ?_
      intro b x hx hb
      by_cases hcmp : x.2 < b.2
      · rw [if_pos hcmp]
        simp only [List.mem_cons, List.not_mem_nil, or_false] at hx
        rcases hx with hx | hx | hx | hx <;> subst hx <;> omega
      · rw [if_neg hcmp]; exact hb
    cases ht : psBuildGo best.1 fuel rules with
    | none => rw [ht] at h; cases h
    | some tree =>
        rw [ht] at h
        simp only [Option.some_bind] at h
        injection h with h
        exact Or.inr ⟨tree, best.1, hb5, ht, h.symm⟩

/-- The classifier build succeeds with fuel |rules| + 1 whenever every rule
has valid (non-inverted) ranges. -/
theorem psBuild_terminates {rules : List Rule}
    (hvalid : ∀ r ∈ rules, r.validRanges) {fuel : Nat}
    (hfuel : rules.length < fuel) :
    ∃ c, PartitionSortClassifier.build fuel rules = some c := by
  unfold PartitionSortClassifier.build
  by_cases hemp : rules.isEmpty
  · rw [if_pos hemp]
    exact ⟨_, rfl⟩
  · rw [if_neg hemp]
    have hterm : ∀ d, d < 5 → ∃ t, psBuildGo d fuel rules = some t := by
      intro d hd
      exact psBuildGo_terminates d fuel rules
        (fun r hr => validRanges_psRange (hvalid r hr) hd) hfuel
    obtain ⟨t0, ht0⟩ := hterm 0 (by omega)
    obtain ⟨t1, ht1⟩ := hterm 1 (by omega)
    obtain ⟨t2, ht2⟩ := hterm 2 (by omega)
    obtain ⟨t3, ht3⟩ := hterm 3 (by omega)
    obtain ⟨t4, ht4⟩ := hterm 4 (by omega)
    simp only [evaluate_dimension, ht0, ht1, ht2, ht3, ht4, Option.map_some',
      Option.bind_eq_bind, Option.some_bind]
    set best := [(1, PTree.maxBucket t1), (2, PTree.maxBucket t2),
      (3, PTree.maxBucket t3), (4, PTree.maxBucket t4)].foldl
      (fun b x => if x.2 < b.2 then x else b) (0, PTree.maxBucket t0) with hbest
    have hb5 : best.1 < 5 := by
      rw [hbest]
      refine foldl_invariant (fun (b : Nat × Nat) => b.1 < 5) _ _ _ (by omega) ?_
      intro b x hx hb
      by_cases hcmp : x.2 < b.2
      · rw [if_pos hcmp]
        simp only [List.mem_cons, List.not_mem_nil, or_false] at hx
        rcases hx with hx | hx | hx | hx <;> subst hx <;> omega
      · rw [if_neg hcmp]; exact hb
    obtain ⟨t, ht⟩ := hterm best.1 hb5
    rw [ht]
    exact ⟨_, rfl⟩

/-- Classification through a single-tree classifier is the query of that
tree. -/
theorem psClassify_single (tree : PTree) (d : Nat) (p : FiveTuple) :
    PartitionSortClassifier.classify ⟨[(tree, d)]⟩ p =
      (psQuery p (psFieldVal p d) tree).map Rule.action := by
  simp only [PartitionSortClassifier.classify, List.foldl_cons, List.foldl_nil]
  cases psQuery p (psFieldVal p d) tree <;> rfl

/-- PartitionSort characterisation (whenever the build returns): some names
a minimal-priority match, none means no match. -/
theorem ps_minMatch {fuel : Nat} {rules : List Rule}
    {c : PartitionSortClassifier}
    (hb : PartitionSortClassifier.build fuel rules = some c) (p : FiveTuple) :
    (∀ a, c.classify p = some a → ∃ s, IsMinMatch rules p s ∧ s.action = a) ∧
    (c.classify p = none ↔ ∀ r ∈ rules, ¬ r.matches p = true) := by
  rcases psBuild_some hb with ⟨hrules, hc⟩ | ⟨tree, d, hd5, htree, hc⟩
  · subst hrules
    subst hc
    have hnone : PartitionSortClassifier.classify ⟨[]⟩ p = none := rfl
    constructor
    · intro a ha
      rw [hnone] at ha
      cases ha
    · simp [hnone]
  · subst hc
    obtain ⟨hsound, hmin⟩ := psBuildGo_query_spec d hd5 fuel rules tree p htree
    rw [psClassify_single]
    constructor
    · intro a ha
      rw [Option.map_eq_some'] at ha
      obtain ⟨s, hs, hact⟩ := ha
      obtain ⟨hsr, hsm⟩ := hsound s hs
      refine ⟨s, ⟨hsr, hsm, ?_⟩, hact⟩
      intro r' hr' hm'
      obtain ⟨s₂, hs₂, hp₂⟩ := hmin r' hr' hm'
      rw [hs] at hs₂
      injection hs₂ with hs₂
      rw [hs₂]
      exact hp₂
    · rw [Option.map_eq_none']
      constructor
      · intro hq r hr hm
        obtain ⟨s₂, hs₂, _⟩ := hmin r hr hm
        rw [hq] at hs₂
        cases hs₂
      · intro hall
        cases hq : psQuery p (psFieldVal p d) tree with
        | none => rfl
        | some s =>
            obtain ⟨hsr, hsm⟩ := hsound s hq
            exact absurd hsm (hall s hsr)

/-- With pairwise-distinct priorities any completed PartitionSort build
agrees with the linear oracle on every packet. -/
theorem ps_eq_linear {fuel : Nat} {rules : List Rule}
    {c : PartitionSortClassifier} (hD : DistinctPrio rules)
    (hb : PartitionSortClassifier.build fuel rules = some c) (p : FiveTuple) :
    c.classify p = (LinearClassifier.build rules).classify p := by
  obtain ⟨hpsome, hpnone⟩ := ps_minMatch hb p
  obtain ⟨hlsome, hlnone⟩ := @linear_minMatch rules p
  cases hl : (LinearClassifier.build rules).classify p with
  | none =>
      rw [hlnone] at hl
      exact hpnone.mpr hl
  | some a =>
      obtain ⟨rL, hLmin, hLact⟩ := hlsome a hl
      cases hp : c.classify p with
      | none => exact absurd hLmin.2.1 (hpnone.mp hp rL hLmin.1)
      | some a₂ =>
          obtain ⟨rP, hPmin, hPact⟩ := hpsome a₂ hp
          have : rP = rL := minMatch_unique hD hPmin hLmin
          rw [← hPact, this, hLact]

end PartitionSortMain

/-- Modelled from the spec: the workload generator is seed-deterministic
(src/simulation.rs); its randomness source rand_pcg::Pcg32 is an external
crate whose bit stream is not part of this repository, so it is abstracted
as an oracle stream of natural numbers with a cursor — one draw per rng
call, every theorem quantifying over all streams (every concrete seed
realises one stream).  Rust release semantics (wrapping u32 addition) is
used for the two base-plus-offset range ends. -/
structure Sim where
  draws : Nat → Nat
  idx : Nat

/-- Consume one draw. -/
def Sim.next (s : Sim) : Nat × Sim := (s.draws s.idx, ⟨s.draws, s.idx + 1⟩)

/-- Source src/simulation.rs: gen_service_port — gen_range(0..4) mapped to
the four service ports. -/
def genServicePort (d : Nat) : Nat :=
  match d % 4 with
  | 0 => 80
  | 1 => 443
  | 2 => 53
  | _ => 8080

/-- Source src/simulation.rs: gen_lan_to_wan_rule.  Draw order follows the
source: mask, suffix, source span, destination base, service port, proto
coin.  dst_ip + 100 wraps modulo 2^32 (u32 release semantics). -/
def genLanToWanRule (s : Sim) (id : Nat) (action : Action) : Rule × Sim :=
  let (d1, s) := s.next
  let mask := 16 + d1 % 16
  let (d2, s) := s.next
  let suffix := (d2 % 2 ^ 32) % 2 ^ (32 - mask)
  let srcStart := 0xC0A80000 + suffix
  let (d3, s) := s.next
  let srcEnd := srcStart + d3 % 255
  let (d4, s) := s.next
  let dstIp := d4 % 2 ^ 32
  let (d5, s) := s.next
  let (d6, s) := s.next
  (⟨id, id, ⟨srcStart, srcEnd⟩, ⟨dstIp, (dstIp + 100) % 2 ^ 32⟩,
    ⟨1024, 65535⟩, NRange.exact (genServicePort d5),
    NRange.exact (if d6 % 2 = 0 then 6 else 17), action⟩, s)

/-- Source src/simulation.rs: gen_wan_to_lan_rule; src_ip + 50 wraps. -/
def genWanToLanRule (s : Sim) (id : Nat) (action : Action) : Rule × Sim :=
  let (d1, s) := s.next
  let srcIp := d1 % 2 ^ 32
  let (d2, s) := s.next
  let dstAddr := 0xC0A80000 + d2 % 2 ^ 16
  (⟨id, id, ⟨srcIp, (srcIp + 50) % 2 ^ 32⟩, NRange.exact dstAddr,
    ⟨0, 65535⟩, NRange.exact 80, NRange.exact 6, action⟩, s)

/-- Source src/simulation.rs: gen_igmp_rule (no randomness). -/
def genIgmpRule (id : Nat) (action : Action) : Rule :=
  ⟨id, id, ⟨0, 2 ^ 32 - 1⟩, ⟨0xE0000000, 0xEFFFFFFF⟩, ⟨0, 65535⟩,
    ⟨0, 65535⟩, NRange.exact 2, action⟩

/-- One iteration of the generate_rules loop: the action coin
(gen_bool(0.8)), then the kind draw (gen_range(0..10)): 0..=5 LAN→WAN,
6..=8 WAN→LAN, else IGMP. -/
def genOneRule (s : Sim) (i : Nat) : Rule × Sim :=
  let (da, s) := s.next
  let action := if da % 10 < 8 then Action.Permit else Action.Deny
  let (dk, s) := s.next
  let k := dk % 10
  if k ≤ 5 then genLanToWanRule s i action
  else if k ≤ 8 then genWanToLanRule s i action
  else (genIgmpRule i action, s)

/-- The generate_rules loop over i in 0..n (k counts the remaining
iterations). -/
def genRulesGo : Nat → Nat → Sim → List Rule × Sim
  | 0, _, s => ([], s)
  | k + 1, i, s =>
      let (r, s₂) := genOneRule s i
      let (rest, s₃) := genRulesGo k (i + 1) s₂
      (r :: rest, s₃)

/-- Source src/simulation.rs: generate_rules — n generated rules (priority
= index) plus the trailing catch-all Deny with id = priority = n. -/
def generate_rules (s : Sim) (n : Nat) : List Rule × Sim :=
  let (rs, s₂) := genRulesGo n 0 s
  (rs ++ [⟨n, n, ⟨0, 2 ^ 32 - 1⟩, ⟨0, 2 ^ 32 - 1⟩, ⟨0, 65535⟩, ⟨0, 65535⟩,
    ⟨0, 255⟩, Action.Deny⟩], s₂)

/-- Source src/simulation.rs: one iteration of generate_packets: biased
src/dst (half in 192.168.0.0/16), random ports, proto 10% IGMP else a
TCP/UDP coin (the coin draw is consumed only on the non-IGMP branch, as in
the source). -/
def genOnePacket (s : Sim) : FiveTuple × Sim :=
  let (d1, s) := s.next
  let (d2, s) := s.next
  let src := if d1 % 2 = 0 then 0xC0A80000 + d2 % 2 ^ 16 else d2 % 2 ^ 32
  let (d3, s) := s.next
  let (d4, s) := s.next
  let dst := if d3 % 2 = 0 then 0xC0A80000 + d4 % 2 ^ 16 else d4 % 2 ^ 32
  let (d5, s) := s.next
  let (d6, s) := s.next
  let (d7, s) := s.next
  if d7 % 10 = 0 then
    (⟨src, dst, d5 % 2 ^ 16, d6 % 2 ^ 16, 2⟩, s)
  else
    let (d8, s) := s.next
    (⟨src, dst, d5 % 2 ^ 16, d6 % 2 ^ 16, if d8 % 2 = 0 then 6 else 17⟩, s)

/-- The generate_packets loop. -/
def genPacketsGo : Nat → Sim → List FiveTuple × Sim
  | 0, s => ([], s)
  | k + 1, s =>
      let (p, s₂) := genOnePacket s
      let (rest, s₃) := genPacketsGo k s₂
      (p :: rest, s₃)

/-- Source src/simulation.rs: generate_packets. -/
def generate_packets (s : Sim) (n : Nat) : List FiveTuple × Sim :=
  genPacketsGo n s

section SimLemmas

theorem genOneRule_priority (s : Sim) (i : Nat) :
    ((genOneRule s i).1).priority = i := by
  unfold genOneRule genLanToWanRule genWanToLanRule genIgmpRule
  simp only [Sim.next]
  split
  · rfl
  · split <;> rfl

theorem genRulesGo_priorities :
    ∀ (k i : Nat) (s : Sim),
      ((genRulesGo k i s).1).map Rule.priority = List.range' i k := by
  intro k
  induction k with
  | zero => intro i s; rfl
  | succ k ih =>
      intro i s
      simp only [genRulesGo, List.map_cons, List.range']
      rw [genOneRule_priority, ih]

theorem generate_rules_priorities (s : Sim) (n : Nat) :
    ((generate_rules s n).1).map Rule.priority = List.range' 0 n ++ [n] := by
  simp only [generate_rules, List.map_append, genRulesGo_priorities,
    List.map_cons, List.map_nil]

/-- The generated rule list has strictly increasing priorities
(0, 1, ..., n), independently of the draws. -/
theorem generate_rules_strictPrio (s : Sim) (n : Nat) :
    ((generate_rules s n).1).Pairwise
      (fun a b => a.priority < b.priority) := by
  have h := generate_rules_priorities s n
  have hr : (List.range' 0 n ++ [n]).Pairwise (· < ·) := by
    rw [List.pairwise_append]
    refine ⟨List.pairwise_lt_range' 0 n, by simp, ?_⟩
    intro a ha b hb
    simp only [List.mem_singleton] at hb
    subst hb
    have := List.mem_range'_1.mp ha
    omega
  rw [← h, List.pairwise_map] at hr
  exact hr

theorem generate_rules_prioSorted (s : Sim) (n : Nat) :
    PrioSorted ((generate_rules s n).1) :=
  (generate_rules_strictPrio s n).imp le_of_lt

theorem generate_rules_distinctPrio (s : Sim) (n : Nat) :
    DistinctPrio ((generate_rules s n).1) :=
  (generate_rules_strictPrio s n).imp ne_of_lt

theorem genOnePacket_wf (s : Sim) : ((genOnePacket s).1).wf := by
  have h16 : ∀ d : Nat, 3232235520 + d % 65536 < 4294967296 := by
    intro d
    have := Nat.mod_lt d (show 0 < 65536 by norm_num)
    omega
  have h32 : ∀ d : Nat, d % 4294967296 < 4294967296 :=
    fun d => Nat.mod_lt d (by norm_num)
  have hp16 : ∀ d : Nat, d % 65536 < 65536 :=
    fun d => Nat.mod_lt d (by norm_num)
  unfold genOnePacket FiveTuple.wf
  simp only [Sim.next]
  split <;>
    refine ⟨?_, ?_, ?_, ?_, ?_⟩ <;>
    dsimp only <;>
    first
      | (split <;> first | exact h16 _ | exact h32 _)
      | exact hp16 _
      | (split <;> norm_num)
      | norm_num

theorem genPacketsGo_wf :
    ∀ (k : Nat) (s : Sim) (p : FiveTuple),
      p ∈ (genPacketsGo k s).1 → p.wf := by
  intro k
  induction k with
  | zero => intro s p hp; cases hp
  | succ k ih =>
      intro s p hp
      simp only [genPacketsGo] at hp
      rcases List.mem_cons.mp hp with hp | hp
      · subst hp; exact genOnePacket_wf s
      · exact ih _ p hp

theorem generate_packets_wf (s : Sim) (n : Nat) {p : FiveTuple}
    (hp : p ∈ (generate_packets s n).1) : p.wf :=
  genPacketsGo_wf n s p hp

end SimLemmas

/-- Wildcard u32 range. -/
def anyIp : NRange := ⟨0, 2 ^ 32 - 1⟩

/-- Wildcard u16 range. -/
def anyPort : NRange := ⟨0, 65535⟩

/-- Wildcard u8 range. -/
def anyProto : NRange := ⟨0, 255⟩

/-- Scenario rule: full wildcard, Permit, priority 1. -/
def wildcardPermit1 : Rule :=
  ⟨0, 1, anyIp, anyIp, anyPort, anyPort, anyProto, Action.Permit⟩

/-- Scenario rule: full wildcard, Deny, priority 0. -/
def wildcardDeny0 : Rule :=
  ⟨1, 0, anyIp, anyIp, anyPort, anyPort, anyProto, Action.Deny⟩

/-- All-zero packet. -/
def packet0 : FiveTuple := ⟨0, 0, 0, 0, 0⟩

/-- A rule with an inverted src_ip range [5, 1] and wildcards elsewhere. -/
def invertedRule : Rule :=
  ⟨0, 0, ⟨5, 1⟩, anyIp, anyPort, anyPort, anyProto, Action.Permit⟩

/-- Tie-break example: wildcard Permit at priority 0. -/
def ruleTieA : Rule :=
  ⟨0, 0, anyIp, anyIp, anyPort, anyPort, anyProto, Action.Permit⟩

/-- Tie-break example: src_ip [0,10] Deny, also priority 0. -/
def ruleTieB : Rule :=
  ⟨1, 0, ⟨0, 10⟩, anyIp, anyPort, anyPort, anyProto, Action.Deny⟩

/-- Appended lower-priority rule: src_ip [100,200], priority 1. -/
def ruleAppS : Rule :=
  ⟨2, 1, ⟨100, 200⟩, anyIp, anyPort, anyPort, anyProto, Action.Permit⟩

/-- Packet with src_ip 5. -/
def packet5 : FiveTuple := ⟨5, 0, 0, 0, 0⟩

/-- A small exact-ish rule whose TSS expansion is a single combination. -/
def smallRule : Rule :=
  ⟨0, 0, ⟨0, 3⟩, ⟨1, 1⟩, ⟨0, 1⟩, ⟨2, 2⟩, ⟨6, 6⟩, Action.Permit⟩

/-- A draw stream under which generate_rules(1) emits a WAN→LAN rule whose
src base sits 50 below the top of the u32 range, so src_ip + 50 wraps and
the generated rule gets an inverted src_ip range. -/
def cxDraws : Nat → Nat :=
  fun i => if i = 1 then 6 else if i = 2 then 2 ^ 32 - 1 else 0

/-- The PartitionSort tree build never returns on this rule set, at any
recursion depth. -/
def psGoDiverges (f : Nat) (rules : List Rule) : Prop :=
  ∀ fuel, psBuildGo f fuel rules = none

/-- The PartitionSort classifier build never returns on this rule set. -/
def psBuildDiverges (rules : List Rule) : Prop :=
  ∀ fuel, PartitionSortClassifier.build fuel rules = none

section DivergenceLemmas

/-- If a node's left partition reproduces the whole rule set, the recursion
makes no progress and never terminates. -/
theorem psGoDiverges_self {rules : List Rule} {f : Nat}
    (hne : rules.isEmpty = false)
    (h : psLeftR rules f (psCenter rules f) = rules) : psGoDiverges f rules := by
  intro fuel
  induction fuel with
  | zero => rfl
  | succ fuel ih =>
      rw [psBuildGo, if_neg (by simp [hne]), h, if_neg (by simp [hne]), ih]

/-- Divergence propagates from a non-empty left child back to the parent. -/
theorem psGoDiverges_step {rules sub : List Rule} {f : Nat}
    (hne : rules.isEmpty = false)
    (h : psLeftR rules f (psCenter rules f) = sub)
    (hsubne : sub.isEmpty = false)
    (hdiv : psGoDiverges f sub) : psGoDiverges f rules := by
  intro fuel
  cases fuel with
  | zero => rfl
  | succ fuel =>
      rw [psBuildGo, if_neg (by simp [hne]), h, if_neg (by simp [hsubne]),
        hdiv fuel]

/-- A diverging dimension-0 tree makes the whole classifier build diverge
(dimension 0 is scored first). -/
theorem psBuildDiverges_of_dim0 {rules : List Rule}
    (hne : rules.isEmpty = false) (h : psGoDiverges 0 rules) :
    psBuildDiverges rules := by
  intro fuel
  unfold PartitionSortClassifier.build
  rw [if_neg (by simp [hne])]
  have he : evaluate_dimension fuel rules 0 = none := by
    rw [evaluate_dimension, h fuel]
    rfl
  rw [he]
  rfl

/-- The singleton inverted rule makes the dimension-0 interval-tree build
loop forever: the center is the (inverted) min endpoint 5, and the whole
set goes to the left child unchanged. -/
theorem psGoDiverges_invertedRule : psGoDiverges 0 [invertedRule] :=
  psGoDiverges_self (by decide) (by decide)

end DivergenceLemmas

section AppendLemmas

/-- If some rule of the front list matches, appending rules changes nothing
about the first match. -/
theorem firstMatch_append_eq {R S : List Rule} {p : FiveTuple}
    (hmatch : ∃ q ∈ R, q.matches p = true) :
    firstMatch (R ++ S) p = firstMatch R p := by
  obtain ⟨q, hq, hqm⟩ := hmatch
  obtain ⟨s, hs⟩ := firstMatch_isSome hq hqm
  rw [hs, firstMatch_append_left hs]

/-- When the appended rules all have strictly larger priority values and the
front list already holds a match, a minimum match of the whole list is a
minimum match of the front list. -/
theorem isMinMatch_restrict {R S : List Rule} {p : FiveTuple} {r : Rule}
    (hSep : ∀ s ∈ S, ∀ q ∈ R, q.priority < s.priority)
    (hmatch : ∃ q ∈ R, q.matches p = true)
    (h : IsMinMatch (R ++ S) p r) : IsMinMatch R p r := by
  obtain ⟨q, hq, hqm⟩ := hmatch
  have hr : r ∈ R := by
    rcases List.mem_append.mp h.1 with hr | hr
    · exact hr
    · have h1 := h.2.2 q (List.mem_append_left S hq) hqm
      have h2 := hSep r hr q hq
      omega
  exact ⟨hr, h.2.1, fun r' hr' hm' => h.2.2 r' (List.mem_append_left S hr') hm'⟩

/-- Two classification results characterised by the minimum-match property —
one over R ++ S, one over R — agree whenever R has pairwise-distinct
priorities, the appended rules have strictly larger priority values, and
some rule of R matches the packet. -/
theorem minMatch_append_eq {R S : List Rule} {p : FiveTuple}
    {x y : Option Action} (hD : DistinctPrio R)
    (hSep : ∀ s ∈ S, ∀ q ∈ R, q.priority < s.priority)
    (hmatch : ∃ q ∈ R, q.matches p = true)
    (hxs : ∀ a, x = some a → ∃ r, IsMinMatch (R ++ S) p r ∧ r.action = a)
    (hxn : x = none ↔ ∀ r ∈ R ++ S, ¬ r.matches p = true)
    (hys : ∀ a, y = some a → ∃ r, IsMinMatch R p r ∧ r.action = a)
    (hyn : y = none ↔ ∀ r ∈ R, ¬ r.matches p = true) : x = y := by
  obtain ⟨q, hq, hqm⟩ := hmatch
  cases hx : x with
  | none => exact absurd hqm (hxn.mp hx q (List.mem_append_left S hq))
  | some a =>
      cases hy : y with
      | none => exact absurd hqm (hyn.mp hy q hq)
      | some b =>
          obtain ⟨r₁, hr₁, ha⟩ := hxs a hx
          obtain ⟨r₂, hr₂, hb⟩ := hys b hy
          have he := minMatch_unique hD
            (isMinMatch_restrict hSep ⟨q, hq, hqm⟩ hr₁) hr₂
          rw [← ha, ← hb, he]

/-- On an already priority-sorted rule list the linear classifier is the
plain input-order first-match scan. -/
theorem linear_classify_sorted {rules : List Rule} {p : FiveTuple}
    (h : PrioSorted rules) :
    (LinearClassifier.build rules).classify p =
      (firstMatch rules p).map Rule.action := by
  simp [LinearClassifier.classify, LinearClassifier.build,
    sortByPriority_eq_self h]

end AppendLemmas

/-- The rule has min > max in at least one of its five dimensions. -/
def Rule.someInverted (r : Rule) : Prop :=
  r.src_ip.max < r.src_ip.min ∨ r.dst_ip.max < r.dst_ip.min ∨
    r.src_port.max < r.src_port.min ∨ r.dst_port.max < r.dst_port.min ∨
    r.proto.max < r.proto.min

instance (r : Rule) : Decidable r.someInverted := by
  unfold Rule.someInverted; infer_instance

/-- Every answer some a of the classification result o is backed by a
matching rule of the set other than r. -/
def SoundNotFrom (rules : List Rule) (p : FiveTuple) (r : Rule)
    (o : Option Action) : Prop :=
  ∀ a, o = some a → ∃ s, s ∈ rules ∧ s.matches p = true ∧ s.action = a ∧ s ≠ r

section InvertedLemmas

/-- An inverted range contains nothing, so a rule with an inverted dimension
matches no packet. -/
theorem inverted_matches_false {r : Rule} (h : r.someInverted)
    (p : FiveTuple) : r.matches p = false := by
  cases hm : r.matches p
  · rfl
  exfalso
  simp only [Rule.matches, NRange.contains, Bool.and_eq_true,
    decide_eq_true_eq] at hm
  rcases h with h | h | h | h | h <;> omega

theorem soundNotFrom_of {rules : List Rule} {p : FiveTuple} {r : Rule}
    {o : Option Action} (hrm : r.matches p = false)
    (hsome : ∀ a, o = some a → ∃ s, IsMinMatch rules p s ∧ s.action = a) :
    SoundNotFrom rules p r o := by
  intro a ha
  obtain ⟨s, hmin, hact⟩ := hsome a ha
  refine ⟨s, hmin.1, hmin.2.1, hact, fun he => ?_⟩
  have hm := hmin.2.1
  rw [he, hrm] at hm
  exact Bool.noConfusion hm

theorem soundNotFrom_fm {rules : List Rule} {p : FiveTuple} {r : Rule}
    (hrm : r.matches p = false) :
    SoundNotFrom rules p r ((firstMatch rules p).map Rule.action) := by
  intro a ha
  obtain ⟨s, hs, hact⟩ := Option.map_eq_some'.mp ha
  obtain ⟨hmem, hm⟩ := firstMatch_mem hs
  refine ⟨s, hmem, hm, hact, fun he => ?_⟩
  rw [he, hrm] at hm
  exact Bool.noConfusion hm

end InvertedLemmas

/-- The rules generated from the draw stream cxDraws with n = 1: a
WAN→LAN rule whose src_ip wrapped (min 2^32 − 1, max 49), then the
wildcard catch-all Deny. -/
def cxRules : List Rule := (generate_rules ⟨cxDraws, 0⟩ 1).1

/-- The left child cxRules produces under dimension 0: the wrapped rule
alone, which then reproduces itself forever. -/
def cxSub : List Rule :=
  [⟨0, 0, ⟨4294967295, 49⟩, ⟨3232235520, 3232235520⟩, ⟨0, 65535⟩, ⟨80, 80⟩,
    ⟨6, 6⟩, Action.Permit⟩]

/-- The packet generated first from the all-zero draw stream. -/
def packetW : FiveTuple := ⟨3232235520, 3232235520, 0, 0, 2⟩

/-- The all-zero draw stream. -/
def simW : Sim := ⟨fun _ => 0, 0⟩

/-- The single (tuple, table) entry TSSbuild creates for smallRule. -/
def tssEntryW : TupleLens × TssTable :=
  (⟨30, 32, 15, 16, 8⟩, [(⟨0, 1, 0, 2, 6⟩, [smallRule])])

/-- The single (key, bucket) pair inside tssEntryW. -/
def tssBucketW : TupleKey × List Rule := (⟨0, 1, 0, 2, 6⟩, [smallRule])

/-- C1: the priority property is violated by the tree engines.  On the rule
set [wildcard Permit priority 1, wildcard Deny priority 0] in that input
order, CutSplit, HiCuts and HyperSplit return some Permit on the all-zero
packet although the minimum matching priority is 0 and carries Deny — the
builders never re-sort their leaf lists, so the leaf scan returns the first
match in input order.  Linear and TSS return the claimed some Deny. -/
theorem C1_priority_property_code_bug :
    (CutSplitClassifier.build [wildcardPermit1, wildcardDeny0]).classify
        packet0 = some Action.Permit ∧
    (HiCutsClassifier.build [wildcardPermit1, wildcardDeny0]).classify
        packet0 = some Action.Permit ∧
    (HyperSplitClassifier.build [wildcardPermit1, wildcardDeny0]).classify
        packet0 = some Action.Permit ∧
    (LinearClassifier.build [wildcardPermit1, wildcardDeny0]).classify
        packet0 = some Action.Deny ∧
    (TSSClassifier.build [wildcardPermit1, wildcardDeny0]).classify
        packet0 = some Action.Deny ∧
    wildcardDeny0.priority < wildcardPermit1.priority ∧
    wildcardDeny0.matches packet0 = true ∧
    Action.Permit ≠ Action.Deny := by
  decide

/-- C2 (amended): on every generated workload — any draw stream, any rule
count, any packet count — CutSplit, HiCuts, HyperSplit and TSS agree with
Linear on every generated packet, because generated priorities are strictly
increasing; PartitionSort agrees too whenever its build returns, but its
build can fail to return at any recursion depth (see the counterexample). -/
theorem C2_oracle_equivalence_amended (s : Sim) (n npkt : Nat)
    (p : FiveTuple)
    (hp : p ∈ (generate_packets (generate_rules s n).2 npkt).1) :
    (CutSplitClassifier.build (generate_rules s n).1).classify p =
      (LinearClassifier.build (generate_rules s n).1).classify p ∧
    (HiCutsClassifier.build (generate_rules s n).1).classify p =
      (LinearClassifier.build (generate_rules s n).1).classify p ∧
    (HyperSplitClassifier.build (generate_rules s n).1).classify p =
      (LinearClassifier.build (generate_rules s n).1).classify p ∧
    (TSSClassifier.build (generate_rules s n).1).classify p =
      (LinearClassifier.build (generate_rules s n).1).classify p ∧
    (∀ fuel c, PartitionSortClassifier.build fuel (generate_rules s n).1 =
        some c →
      c.classify p = (LinearClassifier.build (generate_rules s n).1).classify p) := by
  have hwf := generate_packets_wf _ npkt hp
  have hsorted := generate_rules_prioSorted s n
  have hdist := generate_rules_distinctPrio s n
  have hlin := linear_classify_sorted (p := p) hsorted
  refine ⟨?_, ?_, ?_, ?_, ?_⟩
  · rw [cutsplit_eq_firstMatch, hlin]
  · rw [hicuts_eq_firstMatch _ _ hwf, hlin]
  · rw [hypersplit_eq_firstMatch, hlin]
  · exact tss_eq_linear hdist
  · intro fuel c hc
    exact ps_eq_linear hdist hc p

/-- Witness for C2: the workload of the all-zero draw stream with n = 0 and
one packet. -/
theorem C2_oracle_equivalence_witness :
    (packetW ∈ (generate_packets (generate_rules simW 0).2 1).1) ∧
    ((CutSplitClassifier.build (generate_rules simW 0).1).classify packetW =
      (LinearClassifier.build (generate_rules simW 0).1).classify packetW ∧
    (HiCutsClassifier.build (generate_rules simW 0).1).classify packetW =
      (LinearClassifier.build (generate_rules simW 0).1).classify packetW ∧
    (HyperSplitClassifier.build (generate_rules simW 0).1).classify packetW =
      (LinearClassifier.build (generate_rules simW 0).1).classify packetW ∧
    (TSSClassifier.build (generate_rules simW 0).1).classify packetW =
      (LinearClassifier.build (generate_rules simW 0).1).classify packetW ∧
    (∀ fuel c, PartitionSortClassifier.build fuel (generate_rules simW 0).1 =
        some c →
      c.classify packetW =
        (LinearClassifier.build (generate_rules simW 0).1).classify packetW)) :=
  ⟨by decide, C2_oracle_equivalence_amended simW 0 1 packetW (by decide)⟩

/-- Counterexample to C2 as stated: under the draw stream cxDraws the
generator emits (already at n = 1 ≤ 10^4) a WAN→LAN rule whose src_ip + 50
wraps, and on the resulting rule set PartitionSort's build never returns at
any recursion depth, so it cannot equal Linear — which classifies normally
(the all-zero packet gets the catch-all Deny). -/
theorem C2_oracle_equivalence_counterexample :
    psBuildDiverges cxRules ∧
    (LinearClassifier.build cxRules).classify packet0 = some Action.Deny := by
  refine ⟨psBuildDiverges_of_dim0 (by decide) ?_, by decide⟩
  exact psGoDiverges_step (by decide)
    (by decide : psLeftR cxRules 0 (psCenter cxRules 0) = cxSub)
    (by decide) (psGoDiverges_self (by decide)
      (by decide : psLeftR cxSub 0 (psCenter cxSub 0) = cxSub))

/-- C3: range_to_prefixes decomposes any valid range exactly: the emitted
blocks cover precisely [minv, maxv], they are pairwise disjoint (each block
ends strictly before the next begins), the block sizes add up to
maxv − minv + 1, and every block is aligned (value divisible by its size,
i.e. the low bits − len bits are zero) with len ≤ bits. -/
theorem C3_prefix_decomposition (bits minv maxv : Nat)
    (hminmax : minv ≤ maxv) (hdom : maxv < 2 ^ bits) :
    (∀ x, (∃ c ∈ range_to_prefixes bits minv maxv,
        c.value ≤ x ∧ x ≤ c.value + 2 ^ (bits - c.len) - 1) ↔
      (minv ≤ x ∧ x ≤ maxv)) ∧
    ((range_to_prefixes bits minv maxv).map
        (fun c => 2 ^ (bits - c.len))).sum = maxv - minv + 1 ∧
    (range_to_prefixes bits minv maxv).Pairwise
      (fun c₁ c₂ => c₁.value + 2 ^ (bits - c₁.len) - 1 < c₂.value) ∧
    (∀ c ∈ range_to_prefixes bits minv maxv,
      c.value % 2 ^ (bits - c.len) = 0 ∧ c.len ≤ bits) := by
  have h := rtpGo_spec bits maxv (maxv + 1 - minv) minv le_rfl hminmax
  unfold range_to_prefixes
  rw [if_neg (by omega)]
  refine ⟨h.1, ?_, h.2.2.1, ?_⟩
  · rw [h.2.1]
    omega
  · intro c hc
    obtain ⟨hdvd, hlen, -⟩ := h.2.2.2 c hc
    refine ⟨?_, hlen⟩
    obtain ⟨k, hk⟩ := hdvd
    rw [hk]
    exact Nat.mul_mod_right _ _

/-- Witness for C3: the decomposition of [3, 17] at width 8. -/
theorem C3_prefix_decomposition_witness :
    ((3 : Nat) ≤ 17 ∧ (17 : Nat) < 2 ^ 8) ∧
    ((∀ x, (∃ c ∈ range_to_prefixes 8 3 17,
        c.value ≤ x ∧ x ≤ c.value + 2 ^ (8 - c.len) - 1) ↔
      (3 ≤ x ∧ x ≤ 17)) ∧
    ((range_to_prefixes 8 3 17).map (fun c => 2 ^ (8 - c.len))).sum =
      17 - 3 + 1 ∧
    (range_to_prefixes 8 3 17).Pairwise
      (fun c₁ c₂ => c₁.value + 2 ^ (8 - c₁.len) - 1 < c₂.value) ∧
    (∀ c ∈ range_to_prefixes 8 3 17,
      c.value % 2 ^ (8 - c.len) = 0 ∧ c.len ≤ 8)) :=
  ⟨⟨by decide, by decide⟩, C3_prefix_decomposition 8 3 17 (by decide) (by decide)⟩

/-- C4: every engine's build accepts the empty rule set and the resulting
classifier answers none on every packet; PartitionSort's build short
circuits to the classifier with no trees at every fuel. -/
theorem C4_empty_rule_set (p : FiveTuple) :
    (LinearClassifier.build []).classify p = none ∧
    (CutSplitClassifier.build []).classify p = none ∧
    (HiCutsClassifier.build []).classify p = none ∧
    (HyperSplitClassifier.build []).classify p = none ∧
    (TSSClassifier.build []).classify p = none ∧
    (∀ fuel, PartitionSortClassifier.build fuel [] = some ⟨[]⟩) ∧
    PartitionSortClassifier.classify ⟨[]⟩ p = none :=
  ⟨rfl, rfl, rfl, rfl, rfl, fun _ => rfl, rfl⟩

/-- C5 (amended): appending rules S of strictly larger priority value to R
leaves every engine's answer unchanged, provided R has pairwise-distinct
priorities and some rule of R matches the packet (and the packet is well
formed, for HiCuts); without those extra hypotheses the claim fails (see
the counterexample).  For PartitionSort the statement compares any two
completed builds. -/
theorem C5_append_lower_priority (R S : List Rule) (p : FiveTuple)
    (hD : DistinctPrio R)
    (hSep : ∀ s ∈ S, ∀ q ∈ R, q.priority < s.priority)
    (hmatch : ∃ q ∈ R, q.matches p = true) (hwf : p.wf) :
    (CutSplitClassifier.build (R ++ S)).classify p =
      (CutSplitClassifier.build R).classify p ∧
    (HiCutsClassifier.build (R ++ S)).classify p =
      (HiCutsClassifier.build R).classify p ∧
    (HyperSplitClassifier.build (R ++ S)).classify p =
      (HyperSplitClassifier.build R).classify p ∧
    (LinearClassifier.build (R ++ S)).classify p =
      (LinearClassifier.build R).classify p ∧
    (TSSClassifier.build (R ++ S)).classify p =
      (TSSClassifier.build R).classify p ∧
    (∀ fuel₁ fuel₂ c₁ c₂,
      PartitionSortClassifier.build fuel₁ (R ++ S) = some c₁ →
      PartitionSortClassifier.build fuel₂ R = some c₂ →
      c₁.classify p = c₂.classify p) := by
  have hfm := firstMatch_append_eq (S := S) hmatch
  refine ⟨?_, ?_, ?_, ?_, ?_, ?_⟩
  · rw [cutsplit_eq_firstMatch, cutsplit_eq_firstMatch, hfm]
  · rw [hicuts_eq_firstMatch _ _ hwf, hicuts_eq_firstMatch _ _ hwf, hfm]
  · rw [hypersplit_eq_firstMatch, hypersplit_eq_firstMatch, hfm]
  · exact minMatch_append_eq hD hSep hmatch
      (@linear_minMatch (R ++ S) p).1
      (@linear_minMatch (R ++ S) p).2
      (@linear_minMatch R p).1
      (@linear_minMatch R p).2
  · exact minMatch_append_eq hD hSep hmatch
      (tss_minMatch (R ++ S) p).1 (tss_minMatch (R ++ S) p).2
      (tss_minMatch R p).1 (tss_minMatch R p).2
  · intro fuel₁ fuel₂ c₁ c₂ h₁ h₂
    exact minMatch_append_eq hD hSep hmatch
      (ps_minMatch h₁ p).1 (ps_minMatch h₁ p).2
      (ps_minMatch h₂ p).1 (ps_minMatch h₂ p).2

/-- Witness for C5: R = [wildcard Deny priority 0], S = [wildcard Permit
priority 1], on the all-zero packet. -/
theorem C5_append_lower_priority_witness :
    (DistinctPrio [wildcardDeny0] ∧
     (∀ s ∈ [wildcardPermit1], ∀ q ∈ [wildcardDeny0],
       q.priority < s.priority) ∧
     (∃ q ∈ [wildcardDeny0], q.matches packet0 = true) ∧ packet0.wf) ∧
    ((CutSplitClassifier.build ([wildcardDeny0] ++ [wildcardPermit1])).classify
        packet0 = (CutSplitClassifier.build [wildcardDeny0]).classify packet0 ∧
    (HiCutsClassifier.build ([wildcardDeny0] ++ [wildcardPermit1])).classify
        packet0 = (HiCutsClassifier.build [wildcardDeny0]).classify packet0 ∧
    (HyperSplitClassifier.build ([wildcardDeny0] ++ [wildcardPermit1])).classify
        packet0 = (HyperSplitClassifier.build [wildcardDeny0]).classify packet0 ∧
    (LinearClassifier.build ([wildcardDeny0] ++ [wildcardPermit1])).classify
        packet0 = (LinearClassifier.build [wildcardDeny0]).classify packet0 ∧
    (TSSClassifier.build ([wildcardDeny0] ++ [wildcardPermit1])).classify
        packet0 = (TSSClassifier.build [wildcardDeny0]).classify packet0 ∧
    (∀ fuel₁ fuel₂ c₁ c₂,
      PartitionSortClassifier.build fuel₁
          ([wildcardDeny0] ++ [wildcardPermit1]) = some c₁ →
      PartitionSortClassifier.build fuel₂ [wildcardDeny0] = some c₂ →
      c₁.classify packet0 = c₂.classify packet0)) :=
  ⟨⟨by decide, by decide, by decide, by decide⟩,
    C5_append_lower_priority [wildcardDeny0] [wildcardPermit1] packet0
      (by decide) (by decide) (by decide) (by decide)⟩

/-- Counterexample to C5 as stated: with no further hypotheses the claim is
false.  First, if nothing in R matches, an appended lower-priority match
flips none to some (Linear, R = []).  Second, PartitionSort breaks ties in
a fuel/shape-dependent way: rules ruleTieA/ruleTieB share priority 0, and
appending the strictly-lower-priority ruleAppS flips its answer on packet5
from Permit to Deny even though both builds complete. -/
theorem C5_append_lower_priority_counterexample :
    (LinearClassifier.build ([] ++ [wildcardPermit1])).classify packet0 =
      some Action.Permit ∧
    (LinearClassifier.build ([] : List Rule)).classify packet0 = none ∧
    ([ruleTieA, ruleTieB].all fun q =>
      [ruleAppS].all fun s => decide (q.priority < s.priority)) = true ∧
    (PartitionSortClassifier.build 3 ([ruleTieA, ruleTieB] ++ [ruleAppS])).map
      (fun c => c.classify packet5) = some (some Action.Deny) ∧
    (PartitionSortClassifier.build 3 [ruleTieA, ruleTieB]).map
      (fun c => c.classify packet5) = some (some Action.Permit) := by
  decide

/-- C6: for well-formed packets the HiCuts descent always reaches a leaf —
the defensive val < start branch and the child lookup never miss, at every
internal node of every built tree — so classify is exactly the leaf scan of
the reached leaf and every none is a leaf-scan miss. -/
theorem C6_defensive_branch_dead (rules : List Rule) (p : FiveTuple)
    (hwf : p.wf) :
    ∃ rs, hicutsDescend p 21 (HiCutsClassifier.build rules).root = some rs ∧
      (HiCutsClassifier.build rules).classify p =
        (firstMatch rs p).map Rule.action := by
  obtain ⟨rs, hrs, -⟩ :=
    hicutsDescend_buildGo 10 20 21 rules initRegions p (by omega)
      (initRegions_inReg hwf)
  have hrs' : hicutsDescend p 21 (HiCutsClassifier.build rules).root =
      some rs := hrs
  refine ⟨rs, hrs', ?_⟩
  simp only [HiCutsClassifier.classify, hrs']

/-- Witness for C6: the singleton wildcard Deny rule set and the all-zero
packet. -/
theorem C6_defensive_branch_dead_witness :
    packet0.wf ∧
    ∃ rs, hicutsDescend packet0 21
        (HiCutsClassifier.build [wildcardDeny0]).root = some rs ∧
      (HiCutsClassifier.build [wildcardDeny0]).classify packet0 =
        (firstMatch rs packet0).map Rule.action :=
  ⟨by decide, C6_defensive_branch_dead [wildcardDeny0] packet0 (by decide)⟩

/-- C7 (amended): a rule with min > max in some dimension matches no
packet, and each of the five always-terminating engines only ever answers
from some other, genuinely matching rule; the same holds for PartitionSort
whenever its build completes — but PartitionSort's build does not return
normally on every such set (see the counterexample). -/
theorem C7_inverted_ranges_inert (rules : List Rule) (r : Rule)
    (p : FiveTuple) (hr : r ∈ rules) (hinv : r.someInverted) (hwf : p.wf) :
    r.matches p = false ∧
    SoundNotFrom rules p r ((CutSplitClassifier.build rules).classify p) ∧
    SoundNotFrom rules p r ((HiCutsClassifier.build rules).classify p) ∧
    SoundNotFrom rules p r ((HyperSplitClassifier.build rules).classify p) ∧
    SoundNotFrom rules p r ((LinearClassifier.build rules).classify p) ∧
    SoundNotFrom rules p r ((TSSClassifier.build rules).classify p) ∧
    (∀ fuel c, PartitionSortClassifier.build fuel rules = some c →
      SoundNotFrom rules p r (c.classify p)) := by
  have hrm := inverted_matches_false hinv p
  refine ⟨hrm, ?_, ?_, ?_, ?_, ?_, ?_⟩
  · rw [cutsplit_eq_firstMatch]
    exact soundNotFrom_fm hrm
  · rw [hicuts_eq_firstMatch _ _ hwf]
    exact soundNotFrom_fm hrm
  · rw [hypersplit_eq_firstMatch]
    exact soundNotFrom_fm hrm
  · exact soundNotFrom_of hrm (@linear_minMatch rules p).1
  · exact soundNotFrom_of hrm (tss_minMatch rules p).1
  · intro fuel c hc
    exact soundNotFrom_of hrm (ps_minMatch hc p).1

/-- Witness for C7: the inverted-src rule inside a set with the wildcard
Deny rule, on the all-zero packet. -/
theorem C7_inverted_ranges_inert_witness :
    (invertedRule ∈ [invertedRule, wildcardDeny0] ∧
      invertedRule.someInverted ∧ packet0.wf) ∧
    (invertedRule.matches packet0 = false ∧
    SoundNotFrom [invertedRule, wildcardDeny0] packet0 invertedRule
      ((CutSplitClassifier.build [invertedRule, wildcardDeny0]).classify
        packet0) ∧
    SoundNotFrom [invertedRule, wildcardDeny0] packet0 invertedRule
      ((HiCutsClassifier.build [invertedRule, wildcardDeny0]).classify
        packet0) ∧
    SoundNotFrom [invertedRule, wildcardDeny0] packet0 invertedRule
      ((HyperSplitClassifier.build [invertedRule, wildcardDeny0]).classify
        packet0) ∧
    SoundNotFrom [invertedRule, wildcardDeny0] packet0 invertedRule
      ((LinearClassifier.build [invertedRule, wildcardDeny0]).classify
        packet0) ∧
    SoundNotFrom [invertedRule, wildcardDeny0] packet0 invertedRule
      ((TSSClassifier.build [invertedRule, wildcardDeny0]).classify
        packet0) ∧
    (∀ fuel c,
      PartitionSortClassifier.build fuel [invertedRule, wildcardDeny0] =
        some c →
      SoundNotFrom [invertedRule, wildcardDeny0] packet0 invertedRule
        (c.classify packet0))) :=
  ⟨⟨by decide, by decide, by decide⟩,
    C7_inverted_ranges_inert [invertedRule, wildcardDeny0] invertedRule
      packet0 (by decide) (by decide) (by decide)⟩

/-- Counterexample to C7 as stated: PartitionSort's build does not return
normally on a rule set with an inverted rule — on [invertedRule] it recurses
forever at every depth, so no classifier is ever produced. -/
theorem C7_inverted_ranges_inert_counterexample :
    invertedRule.someInverted ∧ psBuildDiverges [invertedRule] :=
  ⟨by decide, psBuildDiverges_of_dim0 (by decide) psGoDiverges_invertedRule⟩

/-- C8: every bucket of every table built by TSS is sorted ascending by
priority, and therefore the early-exit bucket scan always returns a rule at
least as good as any matching rule of the bucket — it never skips a
strictly better one, whatever the incumbent best. -/
theorem C8_tss_bucket_ordering (rules : List Rule) (p : FiveTuple)
    (e : TupleLens × TssTable) (kb : TupleKey × List Rule)
    (he : e ∈ TSSbuild rules) (hkb : kb ∈ e.2) :
    PrioSorted kb.2 ∧
    ∀ (best : Option Rule) (r : Rule), r ∈ kb.2 → r.matches p = true →
      ∃ s, scanBucket p kb.2 best = some s ∧ s.priority ≤ r.priority := by
  have hinv := TSSbuild_invariant rules e he kb hkb
  exact ⟨hinv.1,
    fun best r hr hm => scanBucket_min kb.2 best r hinv.1 hr hm⟩

/-- Witness for C8: the single bucket TSS builds for smallRule. -/
theorem C8_tss_bucket_ordering_witness :
    (tssEntryW ∈ TSSbuild [smallRule] ∧ tssBucketW ∈ tssEntryW.2) ∧
    (PrioSorted tssBucketW.2 ∧
    ∀ (best : Option Rule) (r : Rule), r ∈ tssBucketW.2 →
      r.matches packet0 = true →
      ∃ s, scanBucket packet0 tssBucketW.2 best = some s ∧
        s.priority ≤ r.priority) :=
  ⟨⟨by decide, by decide⟩,
    C8_tss_bucket_ordering [smallRule] packet0 tssEntryW tssBucketW
      (by decide) (by decide)⟩

/-- C9 (amended): the bounded-depth builders terminate on every rule set —
their trees never exceed height max_depth (20 for CutSplit and HiCuts, 32
for HyperSplit) — and PartitionSort's build returns within |rules| + 1
recursion depth whenever every rule has min ≤ max in all five dimensions;
the unconditional PartitionSort termination claimed is false (see the
counterexample), because an inverted rule can reproduce the whole set in
one child. -/
theorem C9_build_termination_amended :
    (∀ rules, (CutSplitClassifier.build rules).root.height ≤ 20) ∧
    (∀ rules, (HyperSplitClassifier.build rules).root.height ≤ 32) ∧
    (∀ rules, (HiCutsClassifier.build rules).root.height ≤ 20) ∧
    (∀ rules, (∀ r ∈ rules, r.validRanges) →
      ∃ c, PartitionSortClassifier.build (rules.length + 1) rules = some c) :=
  ⟨fun rules => binBuild_height find_best_cut false 10 20 rules,
    fun rules => binBuild_height find_best_split true 8 32 rules,
    fun rules => hicutsBuildGo_height 10 20 rules initRegions,
    fun rules hvalid => psBuild_terminates hvalid (by omega)⟩

/-- Witness for C9: the singleton wildcard Deny set has valid ranges and
PartitionSort's build completes on it. -/
theorem C9_build_termination_witness :
    (∀ r ∈ [wildcardDeny0], r.validRanges) ∧
    ∃ c, PartitionSortClassifier.build ([wildcardDeny0].length + 1)
        [wildcardDeny0] = some c :=
  ⟨by decide, C9_build_termination_amended.2.2.2 [wildcardDeny0] (by decide)⟩

/-- Counterexample to C9 as stated: PartitionSort's interval-tree recursion
does not terminate on [invertedRule] — the chosen median endpoint is the
inverted min 5, the whole set falls in the left child, and the recursion
reproduces itself at every depth. -/
theorem C9_build_termination_counterexample :
    psGoDiverges 0 [invertedRule] ∧
    psLeftR [invertedRule] 0 (psCenter [invertedRule] 0) = [invertedRule] :=
  ⟨psGoDiverges_invertedRule, by decide⟩

/-- C10: duplication-based partitioning never loses a rule along the packet's
own root-to-leaf path: any input rule matching a well-formed packet is in
the leaf list that CutSplit's and HyperSplit's descent reaches, and in the
leaf list HiCuts' descent reaches. -/
theorem C10_path_completeness (rules : List Rule) (p : FiveTuple) (r : Rule)
    (hwf : p.wf) (hr : r ∈ rules) (hm : r.matches p = true) :
    r ∈ descendBin p (CutSplitClassifier.build rules).root ∧
    r ∈ descendBin p (HyperSplitClassifier.build rules).root ∧
    ∃ rs, hicutsDescend p 21 (HiCutsClassifier.build rules).root = some rs ∧
      r ∈ rs := by
  have hmemfil : r ∈ rules.filter (fun r => r.matches p) :=
    List.mem_filter.mpr ⟨hr, by simpa using hm⟩
  refine ⟨?_, ?_, ?_⟩
  · have h := descend_binBuild_filter find_best_cut false 10 20 rules p
    have hmem : r ∈ (descendBin p
        (binBuild find_best_cut false 10 20 rules)).filter
          (fun r => r.matches p) := by
      rw [h]
      exact hmemfil
    exact List.mem_of_mem_filter hmem
  · have h := descend_binBuild_filter find_best_split true 8 32 rules p
    have hmem : r ∈ (descendBin p
        (binBuild find_best_split true 8 32 rules)).filter
          (fun r => r.matches p) := by
      rw [h]
      exact hmemfil
    exact List.mem_of_mem_filter hmem
  · obtain ⟨rs, hrs, hfil⟩ :=
      hicutsDescend_buildGo 10 20 21 rules initRegions p (by omega)
        (initRegions_inReg hwf)
    refine ⟨rs, hrs, ?_⟩
    have hmem : r ∈ rs.filter (fun r => r.matches p) := by
      rw [hfil]
      exact hmemfil
    exact List.mem_of_mem_filter hmem

/-- Witness for C10: the wildcard Deny rule on the all-zero packet. -/
theorem C10_path_completeness_witness :
    (packet0.wf ∧ wildcardDeny0 ∈ [wildcardDeny0] ∧
      wildcardDeny0.matches packet0 = true) ∧
    (wildcardDeny0 ∈ descendBin packet0
        (CutSplitClassifier.build [wildcardDeny0]).root ∧
    wildcardDeny0 ∈ descendBin packet0
        (HyperSplitClassifier.build [wildcardDeny0]).root ∧
    ∃ rs, hicutsDescend packet0 21
        (HiCutsClassifier.build [wildcardDeny0]).root = some rs ∧
      wildcardDeny0 ∈ rs) :=
  ⟨⟨by decide, by decide, by decide⟩,
    C10_path_completeness [wildcardDeny0] packet0 wildcardDeny0
      (by decide) (by decide) (by decide)⟩

end AICutSplit
